import Mathlib

/-!
Verification development for the `email_parser` repository.

The core of the repository (text normalization in `src/app/utils/transform.py`,
relevance filtering and classification in `src/app/utils/filters.py`, head
extraction and marker-based incremental collection in
`src/app/gmail/client.py`, and the pointer store in
`src/app/storage/local_state.py`) is shallowly embedded below.  Python strings
are modelled as `List Char`; Python's `str.casefold` is modelled as ASCII
lowercasing (`foldChar`), and the `\w` regex class is modelled for the scripts
that actually occur in the repository's constants (ASCII alphanumerics,
underscore, and the Cyrillic block used by the RU/UA phrase lists).
-/

namespace EmailParser

/-- Python strings are modelled as lists of characters. -/
abbrev PyStr := List Char

/-- The apostrophe character (U+0027), used when spelling string constants. -/
def apos : Char := Char.ofNat 39

/-- ASCII model of Python's `str.casefold` on a single character: uppercase
ASCII letters are mapped to lowercase, everything else is unchanged. -/
def foldChar (c : Char) : Char :=
  if 65 ≤ c.toNat ∧ c.toNat ≤ 90 then Char.ofNat (c.toNat + 32) else c

/-- Model of Python's regex class `\w` (re.UNICODE) restricted to the scripts
used by the repository's constants: ASCII alphanumerics, the underscore, and
the Cyrillic letters U+0400–U+0481 and U+048A–U+04FF (the combining marks and
the symbol U+0482–U+0489, which Python does not treat as word characters, are
excluded). -/
def isWordChar (c : Char) : Bool :=
  c.isAlphanum || c == '_' ||
    (0x400 ≤ c.toNat && c.toNat ≤ 0x481) || (0x48A ≤ c.toNat && c.toNat ≤ 0x4FF)

/-- The replacement table `_NORMALIZE_MAP` of `transform.py`: ampersand becomes
`" and "`, curly quotes become straight quotes, en/em dashes become hyphens.
Each source replacement rewrites a single character, so the sequential
`str.replace` calls amount to a character-wise expansion. -/
def replaceMap (c : Char) : PyStr :=
  if c = '&' then (" and ").toList
  else if c = Char.ofNat 0x2019 then [apos]
  else if c = Char.ofNat 0x2018 then [apos]
  else if c = Char.ofNat 0x201C then ['"']
  else if c = Char.ofNat 0x201D then ['"']
  else if c = Char.ofNat 0x2013 then ['-']
  else if c = Char.ofNat 0x2014 then ['-']
  else [c]

/-- Replace every maximal run of characters failing `keep` by a single space,
keeping all other characters.  `inRun` records whether the previous character
was part of such a run.  With `keep = isWordChar` this is the source's
`re.sub(r"[^\w]+", " ", s)`; with `keep c = !c.isWhitespace` it is
`re.sub(r"\s+", " ", s)`. -/
def squashAux (keep : Char → Bool) : Bool → PyStr → PyStr
  | _, [] => []
  | inRun, c :: cs =>
    if keep c then c :: squashAux keep false cs
    else if inRun then squashAux keep true cs
    else ' ' :: squashAux keep true cs

/-- Replace maximal runs of non-`keep` characters by single spaces. -/
def squash (keep : Char → Bool) (l : PyStr) : PyStr := squashAux keep false l

/-- Python's `str.strip()`: drop leading and trailing whitespace. -/
def pyStrip (l : PyStr) : PyStr :=
  ((l.dropWhile Char.isWhitespace).reverse.dropWhile Char.isWhitespace).reverse

/-- `normalize_soft` from `src/app/utils/transform.py`: casefold, apply the
`_NORMALIZE_MAP` replacements, replace runs of non-word characters by a single
space, collapse whitespace runs, and strip. -/
def normalize_soft (s : PyStr) : PyStr :=
  pyStrip
    (squash (fun c => !c.isWhitespace)
      (squash isWordChar ((s.map foldChar).flatMap replaceMap)))

theorem foldChar_idem (c : Char) : foldChar (foldChar c) = foldChar c := by
  obtain ⟨n, hn⟩ : ∃ n, c.toNat = n := ⟨_, rfl⟩
  by_cases h : 65 ≤ n ∧ n ≤ 90
  · have hc : foldChar c = Char.ofNat (n + 32) := by
      simp only [foldChar, hn]
      rw [if_pos h]
    rw [hc]
    obtain ⟨h1, h2⟩ := h
    interval_cases n <;> decide
  · simp only [foldChar, hn, if_neg h]

/-- Characters that may occur in a fully normalized string: word characters
fixed under casefolding, or the single space. -/
def goodChar (c : Char) : Prop := (isWordChar c = true ∧ foldChar c = c) ∨ c = ' '

/-- No two adjacent spaces. -/
def NoDS (l : PyStr) : Prop := List.Chain' (fun a b => ¬(a = ' ' ∧ b = ' ')) l

/-- Output shape of `normalize_soft`: normalized characters, isolated spaces,
no leading or trailing space. -/
def Normalized (l : PyStr) : Prop :=
  (∀ c ∈ l, goodChar c) ∧ NoDS l ∧ l.head? ≠ some ' ' ∧ l.getLast? ≠ some ' '

instance goodChar.decPred : DecidablePred goodChar := fun c =>
  decidable_of_iff ((isWordChar c = true ∧ foldChar c = c) ∨ c = ' ') Iff.rfl

theorem mem_replaceMap_fold (a c : Char) (h : c ∈ replaceMap (foldChar a)) :
    foldChar c = c := by
  unfold replaceMap at h
  split_ifs at h
  · have e : (" and ").toList = [' ', 'a', 'n', 'd', ' '] := rfl
    rw [e] at h
    simp only [List.mem_cons, List.not_mem_nil, or_false] at h
    rcases h with h | h | h | h | h <;> subst h <;> decide
  · simp only [List.mem_singleton] at h; subst h; decide
  · simp only [List.mem_singleton] at h; subst h; decide
  · simp only [List.mem_singleton] at h; subst h; decide
  · simp only [List.mem_singleton] at h; subst h; decide
  · simp only [List.mem_singleton] at h; subst h; decide
  · simp only [List.mem_singleton] at h; subst h; decide
  · simp only [List.mem_singleton] at h
    subst h
    exact foldChar_idem a

theorem replaceMap_eq_of_goodChar (c : Char) (h : goodChar c) : replaceMap c = [c] := by
  unfold replaceMap
  split_ifs with h1 h2 h3 h4 h5 h6 h7
  · subst h1; exact absurd h (by decide)
  · subst h2; exact absurd h (by decide)
  · subst h3; exact absurd h (by decide)
  · subst h4; exact absurd h (by decide)
  · subst h5; exact absurd h (by decide)
  · subst h6; exact absurd h (by decide)
  · subst h7; exact absurd h (by decide)
  · rfl

theorem mem_squashAux (keep : Char → Bool) (c : Char) :
    ∀ (l : PyStr) (b : Bool), c ∈ squashAux keep b l →
      (c ∈ l ∧ keep c = true) ∨ c = ' ' := by
  intro l
  induction l with
  | nil => intro b h; simp [squashAux] at h
  | cons d ds ih =>
    intro b h
    unfold squashAux at h
    by_cases hd : keep d
    · rw [if_pos hd] at h
      rcases List.mem_cons.mp h with h | h
      · subst h; exact Or.inl ⟨List.mem_cons_self .., hd⟩
      · rcases ih false h with ⟨h1, h2⟩ | h1
        · exact Or.inl ⟨List.mem_cons_of_mem _ h1, h2⟩
        · exact Or.inr h1
    · rw [if_neg hd] at h
      by_cases hb : b
      · rw [if_pos hb] at h
        rcases ih true h with ⟨h1, h2⟩ | h1
        · exact Or.inl ⟨List.mem_cons_of_mem _ h1, h2⟩
        · exact Or.inr h1
      · rw [if_neg hb] at h
        rcases List.mem_cons.mp h with h | h
        · exact Or.inr h
        · rcases ih true h with ⟨h1, h2⟩ | h1
          · exact Or.inl ⟨List.mem_cons_of_mem _ h1, h2⟩
          · exact Or.inr h1

theorem head_squashAux_true (keep : Char → Bool) :
    ∀ (l : PyStr) (x : Char), (squashAux keep true l).head? = some x →
      keep x = true := by
  intro l
  induction l with
  | nil => intro x h; simp [squashAux] at h
  | cons d ds ih =>
    intro x h
    unfold squashAux at h
    by_cases hd : keep d
    · rw [if_pos hd] at h
      simp only [List.head?_cons, Option.some_inj] at h
      subst h; exact hd
    · rw [if_neg hd, if_pos rfl] at h
      exact ih x h

theorem noDS_squashAux (keep : Char → Bool) (hk : keep ' ' = false) :
    ∀ (l : PyStr) (b : Bool), NoDS (squashAux keep b l) := by
  intro l
  induction l with
  | nil => intro b; simp [squashAux, NoDS]
  | cons d ds ih =>
    intro b
    unfold squashAux
    by_cases hd : keep d
    · rw [if_pos hd]
      refine List.chain'_cons'.mpr ⟨?_, ih false⟩
      intro y _
      intro ⟨h1, _⟩
      subst h1
      rw [hk] at hd
      exact Bool.false_ne_true hd
    · rw [if_neg hd]
      by_cases hb : b
      · rw [if_pos hb]; exact ih true
      · rw [if_neg hb]
        refine List.chain'_cons'.mpr ⟨?_, ih true⟩
        intro y hy
        intro ⟨_, h2⟩
        subst h2
        have := head_squashAux_true keep ds ' ' hy
        rw [hk] at this
        exact Bool.false_ne_true this

theorem squashAux_id (keep : Char → Bool) :
    ∀ (l : PyStr), (∀ c ∈ l, keep c = true ∨ c = ' ') → NoDS l →
      squashAux keep false l = l ∧
        (l.head? ≠ some ' ' → squashAux keep true l = l) := by
  intro l
  induction l with
  | nil => intro _ _; exact ⟨rfl, fun _ => rfl⟩
  | cons d ds ih =>
    intro hall hnd
    have hall' : ∀ c ∈ ds, keep c = true ∨ c = ' ' :=
      fun c hc => hall c (List.mem_cons_of_mem _ hc)
    have hnd' : NoDS ds := List.Chain'.tail hnd
    have ihds := ih hall' hnd'
    by_cases hd : keep d
    · constructor
      · unfold squashAux
        rw [if_pos hd, ihds.1]
      · intro _
        unfold squashAux
        rw [if_pos hd, ihds.1]
    · have hdsp : d = ' ' := by
        rcases hall d (List.mem_cons_self ..) with h | h
        · rw [h] at hd; exact absurd rfl hd
        · exact h
      subst hdsp
      have hds_head : ds.head? ≠ some ' ' := by
        intro hcontra
        cases ds with
        | nil => simp at hcontra
        | cons e es =>
          simp only [List.head?_cons, Option.some_inj] at hcontra
          subst hcontra
          have := List.chain'_cons.mp hnd
          exact this.1 ⟨rfl, rfl⟩
      constructor
      · unfold squashAux
        rw [if_neg hd, if_neg (by simp)]
        rw [ihds.2 hds_head]
      · intro hhead
        simp only [List.head?_cons] at hhead
        exact absurd rfl hhead

theorem head?_dropWhile_false (p : Char → Bool) :
    ∀ (l : PyStr) (x : Char), (List.dropWhile p l).head? = some x → p x = false := by
  intro l
  induction l with
  | nil => intro x h; simp [List.dropWhile] at h
  | cons c cs ih =>
    intro x h
    by_cases hc : p c
    · rw [List.dropWhile_cons, if_pos hc] at h
      exact ih x h
    · rw [List.dropWhile_cons, if_neg hc] at h
      simp only [List.head?_cons, Option.some_inj] at h
      subst h
      simp only [Bool.not_eq_true] at hc
      exact hc

theorem dropWhile_eq_self_of_head (p : Char → Bool) (l : PyStr)
    (h : ∀ x, l.head? = some x → p x = false) : List.dropWhile p l = l := by
  cases l with
  | nil => rfl
  | cons c cs =>
    rw [List.dropWhile_cons, if_neg (by simp [h c rfl])]

theorem pyStrip_decomp (l : PyStr) : ∃ s t, s ++ pyStrip l ++ t = l := by
  obtain ⟨s1, hs1⟩ := List.dropWhile_suffix (l := l) Char.isWhitespace
  obtain ⟨s2, hs2⟩ :=
    List.dropWhile_suffix
      (l := (List.dropWhile Char.isWhitespace l).reverse) Char.isWhitespace
  refine ⟨s1, s2.reverse, ?_⟩
  unfold pyStrip
  have h2 := congrArg List.reverse hs2
  rw [List.reverse_append, List.reverse_reverse] at h2
  rw [List.append_assoc, h2, hs1]

theorem head?_false_of_dropWhile_ext (p : Char → Bool) (r m : PyStr)
    (hpre : ∃ t, m ++ t = List.dropWhile p r) (x : Char) (hx : m.head? = some x) :
    p x = false := by
  obtain ⟨t, ht⟩ := hpre
  cases m with
  | nil => simp at hx
  | cons c cs =>
    simp only [List.head?_cons, Option.some_inj] at hx
    subst hx
    apply head?_dropWhile_false p r
    rw [← ht]
    rfl

theorem pyStrip_head (l : PyStr) (x : Char) (h : (pyStrip l).head? = some x) :
    x.isWhitespace = false := by
  obtain ⟨s2, hs2⟩ :=
    List.dropWhile_suffix
      (l := (List.dropWhile Char.isWhitespace l).reverse) Char.isWhitespace
  have h2 := congrArg List.reverse hs2
  rw [List.reverse_append, List.reverse_reverse] at h2
  exact head?_false_of_dropWhile_ext Char.isWhitespace l (pyStrip l)
    ⟨s2.reverse, h2⟩ x h

theorem pyStrip_last (l : PyStr) (x : Char) (h : (pyStrip l).getLast? = some x) :
    x.isWhitespace = false := by
  unfold pyStrip at h
  rw [List.getLast?_reverse] at h
  exact head?_dropWhile_false Char.isWhitespace _ x h

theorem fold_fixed_s2 (s : PyStr) (c : Char)
    (h : c ∈ (s.map foldChar).flatMap replaceMap) : foldChar c = c := by
  rw [List.mem_flatMap] at h
  obtain ⟨a, ha, hc⟩ := h
  rw [List.mem_map] at ha
  obtain ⟨a0, _, ha0⟩ := ha
  subst ha0
  exact mem_replaceMap_fold a0 c hc

theorem goodChar_s3 (s : PyStr) (c : Char)
    (h : c ∈ squash isWordChar ((s.map foldChar).flatMap replaceMap)) :
    goodChar c := by
  rcases mem_squashAux _ c _ false h with ⟨h1, h2⟩ | h1
  · exact Or.inl ⟨h2, fold_fixed_s2 s c h1⟩
  · exact Or.inr h1

theorem goodChar_s4 (s : PyStr) (c : Char)
    (h : c ∈ squash (fun c => !c.isWhitespace)
      (squash isWordChar ((s.map foldChar).flatMap replaceMap))) :
    goodChar c := by
  rcases mem_squashAux _ c _ false h with ⟨h1, _⟩ | h1
  · exact goodChar_s3 s c h1
  · exact Or.inr h1

theorem normalized_normalize_soft (s : PyStr) : Normalized (normalize_soft s) := by
  obtain ⟨sl, tl, hdecomp⟩ := pyStrip_decomp
    (squash (fun c => !c.isWhitespace)
      (squash isWordChar ((s.map foldChar).flatMap replaceMap)))
  refine ⟨?_, ?_, ?_, ?_⟩
  · intro c hc
    apply goodChar_s4 s c
    rw [← hdecomp]
    exact List.mem_append.mpr (Or.inl (List.mem_append.mpr (Or.inr hc)))
  · have h4 := noDS_squashAux (fun c => !c.isWhitespace) (by decide)
      (squash isWordChar ((s.map foldChar).flatMap replaceMap)) false
    exact List.Chain'.infix h4 ⟨sl, tl, hdecomp⟩
  · intro hh
    have := pyStrip_head _ ' ' hh
    exact absurd this (by decide)
  · intro hh
    have := pyStrip_last _ ' ' hh
    exact absurd this (by decide)

theorem word_not_ws (c : Char) (h : isWordChar c = true) : c.isWhitespace = false := by
  by_contra hws
  rw [Bool.not_eq_false] at hws
  have h4 : ((c = ' ' ∨ c = '\t') ∨ c = '\r') ∨ c = '\n' := by
    have hb : (c == ' ' || c == '\t' || c == '\r' || c == '\n') = true := hws
    simpa using hb
  rcases h4 with ((h1 | h1) | h1) | h1 <;> subst h1 <;> exact absurd h (by decide)

theorem map_foldChar_id (l : PyStr) (h : ∀ c ∈ l, goodChar c) :
    l.map foldChar = l := by
  induction l with
  | nil => rfl
  | cons c cs ih =>
    have hc : foldChar c = c := by
      rcases h c (List.mem_cons_self ..) with ⟨_, h2⟩ | h2
      · exact h2
      · subst h2; decide
    simp only [List.map_cons, hc, List.cons.injEq, true_and]
    exact ih (fun d hd => h d (List.mem_cons_of_mem _ hd))

theorem flatMap_replaceMap_id (l : PyStr) (h : ∀ c ∈ l, goodChar c) :
    l.flatMap replaceMap = l := by
  induction l with
  | nil => rfl
  | cons c cs ih =>
    rw [List.flatMap_cons, replaceMap_eq_of_goodChar c (h c (List.mem_cons_self ..)),
      ih (fun d hd => h d (List.mem_cons_of_mem _ hd))]
    rfl

theorem pyStrip_id (l : PyStr) (h : ∀ c ∈ l, goodChar c)
    (hhead : l.head? ≠ some ' ') (hlast : l.getLast? ≠ some ' ') :
    pyStrip l = l := by
  have hws : ∀ (m : PyStr), (∀ c ∈ m, goodChar c) → m.head? ≠ some ' ' →
      List.dropWhile Char.isWhitespace m = m := by
    intro m hm hmh
    apply dropWhile_eq_self_of_head
    intro x hx
    have hxm : x ∈ m := by
      cases m with
      | nil => simp at hx
      | cons c cs =>
        simp only [List.head?_cons, Option.some_inj] at hx
        subst hx
        exact List.mem_cons_self ..
    rcases hm x hxm with ⟨h1, _⟩ | h1
    · exact word_not_ws x h1
    · subst h1
      exact absurd hx hmh
  unfold pyStrip
  rw [hws l h hhead]
  rw [hws l.reverse (fun c hc => h c (List.mem_reverse.mp hc))
    (by rw [List.head?_reverse]; exact hlast)]
  exact List.reverse_reverse l

theorem normalize_soft_fixed (l : PyStr) (h : Normalized l) : normalize_soft l = l := by
  obtain ⟨hgood, hnd, hhead, hlast⟩ := h
  unfold normalize_soft
  rw [map_foldChar_id l hgood, flatMap_replaceMap_id l hgood]
  have hsq1 : squash isWordChar l = l := by
    apply (squashAux_id isWordChar l ?_ hnd).1
    intro c hc
    rcases hgood c hc with ⟨h1, _⟩ | h1
    · exact Or.inl h1
    · exact Or.inr h1
  rw [hsq1]
  have hsq2 : squash (fun c => !c.isWhitespace) l = l := by
    apply (squashAux_id (fun c => !c.isWhitespace) l ?_ hnd).1
    intro c hc
    rcases hgood c hc with ⟨h1, _⟩ | h1
    · exact Or.inl (by simp [word_not_ws c h1])
    · exact Or.inr h1
  rw [hsq2]
  exact pyStrip_id l hgood hhead hlast

/-- C6: `normalize` (`normalize_soft` in `src/app/utils/transform.py`) is
idempotent: `normalize_soft (normalize_soft x) = normalize_soft x` for every
string `x`. -/
theorem normalize_soft_idem (x : PyStr) :
    normalize_soft (normalize_soft x) = normalize_soft x :=
  normalize_soft_fixed _ (normalized_normalize_soft x)

/-- Split a string into its maximal space-free tokens (empty segments are
dropped); `acc` holds the reversed pending token. -/
def tokensAux (acc : PyStr) : PyStr → List PyStr
  | [] => if acc = [] then [] else [acc.reverse]
  | c :: cs =>
    if c = ' ' then
      if acc = [] then tokensAux [] cs else acc.reverse :: tokensAux [] cs
    else tokensAux (c :: acc) cs

/-- The space-separated tokens of a string. -/
def tokens (l : PyStr) : List PyStr := tokensAux [] l

/-- Join tokens with single spaces. -/
def joinSp : List PyStr → PyStr
  | [] => []
  | [t] => t
  | t :: ts => t ++ ' ' :: joinSp ts

/-- The token set matched by the `_LEGAL_SUFFIX` regex of `transform.py`.  On
the dot-free, single-spaced output of `normalize_soft`, the pattern
`\b(inc\.?|ltd\.?|gmbh|s\.?a\.?s\.?|s\.?r\.?l\.?|llc|corp\.?|co\.?|plc)\b\.?`
matches exactly the standalone tokens listed here: the optional dots never
match because the input contains no dots, and the two `\b` anchors force any
match to cover a whole space-delimited token. -/
def LEGAL_SUFFIX_TOKENS : List PyStr :=
  [("inc").toList, ("ltd").toList, ("gmbh").toList, ("sas").toList,
   ("srl").toList, ("llc").toList, ("corp").toList, ("co").toList,
   ("plc").toList]

/-- `normalize_company` from `src/app/utils/transform.py`: `normalize_soft`,
then `re.sub(rf"\b did-strip \b\.?", "", s)` removes every standalone
legal-suffix token (anywhere in the name, not only at the end), then
`re.sub(r"\s+", " ", s).strip()` re-collapses the spacing.  On token level
this removes exactly the suffix-set tokens and rejoins the remainder. -/
def normalize_company (s : PyStr) : PyStr :=
  joinSp ((tokens (normalize_soft s)).filter
    (fun t => !(LEGAL_SUFFIX_TOKENS.contains t)))

theorem tokensAux_nil (acc : PyStr) :
    tokensAux acc [] = if acc = [] then [] else [acc.reverse] := rfl

theorem tokensAux_cons_space (acc cs : PyStr) :
    tokensAux acc (' ' :: cs) =
      if acc = [] then tokensAux [] cs else acc.reverse :: tokensAux [] cs := rfl

theorem tokensAux_cons_nonspace (acc cs : PyStr) (c : Char) (h : c ≠ ' ') :
    tokensAux acc (c :: cs) = tokensAux (c :: acc) cs := by
  rw [show tokensAux acc (c :: cs)
      = if c = ' ' then
          (if acc = [] then tokensAux [] cs else acc.reverse :: tokensAux [] cs)
        else tokensAux (c :: acc) cs from rfl,
    if_neg h]

theorem tokensAux_wf :
    ∀ (l acc : PyStr), (∀ a ∈ acc, a ≠ ' ') →
      ∀ t ∈ tokensAux acc l, t ≠ [] ∧ ∀ a ∈ t, a ≠ ' ' := by
  intro l
  induction l with
  | nil =>
    intro acc hacc t ht
    rw [tokensAux_nil] at ht
    by_cases ha : acc = []
    · rw [if_pos ha] at ht; simp at ht
    · rw [if_neg ha] at ht
      simp only [List.mem_singleton] at ht
      subst ht
      refine ⟨by simpa using ha, ?_⟩
      intro a haa
      exact hacc a (List.mem_reverse.mp haa)
  | cons c cs ih =>
    intro acc hacc t ht
    by_cases hc : c = ' '
    · subst hc
      rw [tokensAux_cons_space] at ht
      by_cases ha : acc = []
      · rw [if_pos ha] at ht
        exact ih [] (by simp) t ht
      · rw [if_neg ha] at ht
        rcases List.mem_cons.mp ht with h | h
        · subst h
          refine ⟨by simpa using ha, ?_⟩
          intro a haa
          exact hacc a (List.mem_reverse.mp haa)
        · exact ih [] (by simp) t h
    · rw [tokensAux_cons_nonspace acc cs c hc] at ht
      refine ih (c :: acc) ?_ t ht
      intro a haa
      rcases List.mem_cons.mp haa with h | h
      · subst h; exact hc
      · exact hacc a h

theorem tokensAux_nospace :
    ∀ (l acc : PyStr), (∀ a ∈ l, a ≠ ' ') →
      tokensAux acc l =
        if acc.reverse ++ l = [] then [] else [acc.reverse ++ l] := by
  intro l
  induction l with
  | nil =>
    intro acc _
    rw [tokensAux_nil]
    by_cases ha : acc = []
    · subst ha; simp
    · rw [if_neg ha, if_neg (by simpa using ha)]
      simp
  | cons c cs ih =>
    intro acc hl
    rw [tokensAux_cons_nonspace acc cs c (hl c (List.mem_cons_self ..))]
    rw [ih (c :: acc) (fun a ha => hl a (List.mem_cons_of_mem _ ha))]
    have he : (c :: acc).reverse ++ cs = acc.reverse ++ c :: cs := by
      simp
    rw [he]

theorem tokensAux_append_space (rest : PyStr) :
    ∀ (t acc : PyStr), (∀ a ∈ t, a ≠ ' ') → acc.reverse ++ t ≠ [] →
      tokensAux acc (t ++ ' ' :: rest) =
        (acc.reverse ++ t) :: tokensAux [] rest := by
  intro t
  induction t with
  | nil =>
    intro acc _ hne
    simp only [List.append_nil] at hne
    have hacc : ¬(acc = []) := by simpa using hne
    show tokensAux acc (' ' :: rest) = (acc.reverse ++ []) :: tokensAux [] rest
    rw [tokensAux_cons_space, if_neg hacc, List.append_nil]
  | cons c t' ih =>
    intro acc ht hne
    have hc : c ≠ ' ' := ht c (List.mem_cons_self ..)
    show tokensAux acc (c :: (t' ++ ' ' :: rest)) = _
    rw [tokensAux_cons_nonspace acc _ c hc]
    rw [ih (c :: acc) (fun a ha => ht a (List.mem_cons_of_mem _ ha)) (by simp)]
    simp

theorem tokens_joinSp (ts : List PyStr)
    (h : ∀ t ∈ ts, t ≠ [] ∧ ∀ a ∈ t, a ≠ ' ') : tokens (joinSp ts) = ts := by
  induction ts with
  | nil => rfl
  | cons t ts' ih =>
    obtain ⟨htne, htns⟩ := h t (List.mem_cons_self ..)
    cases ts' with
    | nil =>
      show tokens t = [t]
      unfold tokens
      rw [tokensAux_nospace t [] htns]
      simp [htne]
    | cons u us =>
      show tokens (t ++ ' ' :: joinSp (u :: us)) = t :: (u :: us)
      unfold tokens
      rw [tokensAux_append_space (joinSp (u :: us)) t [] htns (by simpa using htne)]
      simp only [List.reverse_nil, List.nil_append]
      have hih := ih (fun v hv => h v (List.mem_cons_of_mem _ hv))
      unfold tokens at hih
      rw [hih]

/-- C4 counterexample: the claim says a legal-suffix token is stripped only
when it is the trailing token and non-trailing standalone occurrences are
never stripped.  On `"Co Working"` the token `co` is a standalone
*non-trailing* token of the normalized name, yet `normalize_company` removes
it: the `re.sub` in the source replaces every standalone occurrence, not only
trailing ones. -/
theorem normalize_company_nontrailing_cx :
    (("co").toList ∈ (tokens (normalize_soft (("Co Working").toList))).dropLast)
    ∧ normalize_company (("Co Working").toList) = ("working").toList
    ∧ ("co").toList ∉ tokens (normalize_company (("Co Working").toList)) := by
  decide

/-- C4 (amended): `normalize_company` strips a legal-entity suffix token from
the fixed set exactly when it occurs as a standalone token anywhere in the
normalized name (not only in trailing position); tokens outside the set —
in particular any word merely containing a suffix as a substring — are kept,
in order; and `normalize_company "Acme Inc."` equals
`normalize_company "ACME inc"`. -/
theorem normalize_company_tokens :
    (∀ name : PyStr,
      tokens (normalize_company name)
        = (tokens (normalize_soft name)).filter
            (fun t => !(LEGAL_SUFFIX_TOKENS.contains t)))
    ∧ normalize_company (("Acme Inc.").toList)
        = normalize_company (("ACME inc").toList) := by
  constructor
  · intro name
    unfold normalize_company
    apply tokens_joinSp
    intro t ht
    exact tokensAux_wf (normalize_soft name) [] (by simp) t
      (List.mem_of_mem_filter ht)
  · decide

/-- A single straight apostrophe as a string, for spelling phrase constants. -/
def aposS : String := String.mk [apos]

/-- `PHRASES_POS` from `src/app/utils/patterns.py`, in source order. -/
def PHRASES_POS : List PyStr :=
  [("we would like to proceed").toList,
   (("we" ++ aposS ++ "d like to proceed")).toList,
   ("move forward with your application").toList,
   ("we will move forward with your application").toList,
   ("move you to the next round").toList,
   ("proceed to the interview stage").toList,
   ("advance to the next step").toList,
   ("advance your application").toList,
   ("progress your application").toList,
   ("we are pleased to inform you").toList,
   (("we" ++ aposS ++ "re pleased to inform you")).toList,
   ("successful application").toList,
   ("invite you to interview").toList,
   ("invite you to the next stage").toList,
   ("schedule an interview").toList,
   ("we would like to schedule an interview").toList,
   ("shortlisted").toList,
   ("approve").toList, ("approved").toList,
   ("we were impressed with your background").toList,
   (("we" ++ aposS ++ "re impressed with your background")).toList,
   ("пригласить на интервью").toList,
   ("приглашаем на собеседование").toList,
   ("двигаться дальше с вашей заявкой").toList,
   ("двигаемся дальше").toList,
   ("прошли на следующий этап").toList,
   ("успешно прошли отбор").toList,
   ("запросити на співбесіду").toList,
   ("запрошуємо на співбесіду").toList,
   ("рухатись далі із заявкою").toList,
   ("рухаємось далі").toList,
   ("пройшли на наступний етап").toList,
   ("успішно пройшли відбір").toList]

/-- `PHRASES_NEG` from `src/app/utils/patterns.py`, in source order. -/
def PHRASES_NEG : List PyStr :=
  [("We decided to move forward with another candidate").toList,
   ("we regret to inform you").toList,
   ("we are sorry to inform you").toList,
   (("we" ++ aposS ++ "re sorry to inform you")).toList,
   ("we will not be moving forward").toList,
   ("we will not move forward").toList,
   ("not moving forward with your application").toList,
   ("decided not to proceed").toList,
   ("unable to move forward").toList,
   ("not to move forward").toList,
   ("with other candidate").toList,
   ("no longer under consideration").toList,
   ("not selected for this position").toList,
   ("position has been filled").toList,
   ("application was unsuccessful").toList,
   ("your application was unsuccessful").toList,
   ("will not be proceeding").toList,
   ("better fit for other candidates").toList,
   ("declined").toList, ("decline").toList,
   ("unfortunately").toList,
   ("к сожалению").toList,
   ("вынуждены отказать").toList,
   ("вынуждены отказать вам").toList,
   ("решили не продолжать").toList,
   ("не можем продолжить процесс").toList,
   ("не можем продолжить рассмотрение").toList,
   ("позиция закрыта").toList,
   ("ваша заявка отклонена").toList,
   ("заявка была отклонена").toList,
   ("не прошли на следующий этап").toList,
   ("на жаль").toList,
   ("вимушені відмовити").toList,
   ("вирішили не продовжувати").toList,
   ("не можемо продовжити процес").toList,
   ("позицію закрито").toList,
   ("вашу заявку відхилено").toList,
   ("заявка була відхилена").toList,
   ("не пройшли на наступний етап").toList]

/-- `SKIP_HINTS` from `src/app/utils/patterns.py`, in source order (including
the duplicate `2fa` and the dead hints that contain an uppercase letter or a
hyphen, which can never occur in casefolded, punctuation-free haystacks). -/
def SKIP_HINTS : List PyStr :=
  [("job alert").toList, ("job alerts").toList, ("new jobs").toList,
   ("jobs you may be interested in").toList,
   ("similar jobs").toList, ("recommended jobs").toList,
   ("hottest jobs").toList,
   ("linkedin jobs").toList, ("indeed jobs").toList,
   ("glassdoor jobs").toList,
   ("weekly digest").toList, ("daily digest").toList,
   ("job digest").toList, ("newsletter").toList, ("roundup").toList,
   ("career recommendations").toList, ("job recommendations").toList,
   ("under review").toList, ("If your application").toList,
   ("due to high number").toList,
   ("linkedin").toList, ("indeed").toList, ("glassdoor").toList,
   ("ziprecruiter").toList, ("workable").toList,
   ("smartrecruiters").toList,
   ("otp").toList, ("one time password").toList,
   ("one-time password").toList, ("verification code").toList,
   ("two factor authentication").toList, ("2fa").toList,
   ("login code").toList, ("security code").toList,
   ("use this code").toList, ("your code is").toList,
   ("confirm your login").toList, ("sign in code").toList,
   ("pass code").toList, ("code will expire").toList,
   ("confirm your identity").toList,
   ("новые вакансии").toList, ("подборка вакансий").toList,
   ("рассылка вакансий").toList,
   ("підбірка вакансій").toList, ("розсилка вакансій").toList,
   ("одноразовый пароль").toList, ("код подтверждения").toList,
   ("код для входа").toList,
   ("двухфакторная аутентификация").toList, ("2fa").toList,
   ("перевірочний код").toList, ("код підтвердження").toList,
   ("код входу").toList, ("одноразовий пароль").toList]

/-- Python's `str.find` scan: `some i` when `p` occurs in the remaining text
at offset `i` from the original start, `none` otherwise.  The empty pattern
matches at the current position, as in Python. -/
def findAux (p : PyStr) : PyStr → Nat → Option Nat
  | t, i =>
    if p.isPrefixOf t then some i
    else
      match t with
      | [] => none
      | _ :: t' => findAux p t' (i + 1)

/-- Python's `str.find`: first index of `p` in `t`, or `-1`. -/
def pyFind (t p : PyStr) : Int :=
  match findAux p t 0 with
  | some n => (n : Int)
  | none => -1

/-- Python's `in` operator on strings: `p in t`. -/
def pyContains (t p : PyStr) : Bool := (findAux p t 0).isSome

/-- A message brief as produced by `GmailClient.get_message_briefs`
(`id`, `from`, `subject`, `text_full`, `head`, `internalDate`, `threadId`).
The `from` key is spelled `sender`.  `internalDate` holds the already-parsed
millisecond timestamp: the source stores a string and applies
`int(... or 0)` with a try/except, so a missing or unparseable value is
modelled as `none`. -/
structure Email where
  id : PyStr
  sender : PyStr
  subject : PyStr
  text_full : PyStr
  head : PyStr
  internalDate : Option Int
  threadId : PyStr
deriving DecidableEq, Repr

/-- `should_skip` from `src/app/utils/filters.py`: the normalized
`subject + " " + head` haystack contains some noise hint. -/
def should_skip (email : Email) : Bool :=
  SKIP_HINTS.any
    (fun h => pyContains (normalize_soft (email.subject ++ (" ").toList ++ email.head)) h)

/-- `result.setdefault(comp, []).append(email)` on the insertion-ordered
result dictionary, modelled as an association list. -/
def addToResult (res : List (PyStr × List Email)) (c : PyStr) (e : Email) :
    List (PyStr × List Email) :=
  match res with
  | [] => [(c, [e])]
  | (c', es) :: rest =>
    if c' = c then (c', es ++ [e]) :: rest else (c', es) :: addToResult rest c e

/-- The first company whose nonempty normalized name occurs in the haystack:
the `for comp, norm in norm_companies.items()` loop with `continue` on empty
names and `break` on the first hit. -/
def firstMatch (ncs : List (PyStr × PyStr)) (hay : PyStr) : Option PyStr :=
  match ncs with
  | [] => none
  | (c, n) :: rest =>
    if n ≠ [] ∧ pyContains hay n then some c else firstMatch rest hay

/-- One loop iteration of `filter_by_company`: discard noise, then try the
normalized head, then fall back to the first `BODY_WINDOW = 6000` characters
of the full body. -/
def filterStep (ncs : List (PyStr × PyStr))
    (res : List (PyStr × List Email)) (email : Email) :
    List (PyStr × List Email) :=
  if should_skip email then res
  else
    match firstMatch ncs (normalize_soft email.head) with
    | some c => addToResult res c email
    | none =>
      if email.text_full.take 6000 = [] then res
      else
        match firstMatch ncs (normalize_soft (email.text_full.take 6000)) with
        | some c => addToResult res c email
        | none => res

/-- `filter_by_company` from `src/app/utils/filters.py`.  The result
dictionary is an insertion-ordered association list; `norm_companies` is the
list of `(raw, normalize_company raw)` pairs in caller order. -/
def filter_by_company (emails : List Email) (companies : List PyStr) :
    List (PyStr × List Email) :=
  emails.foldl
    (filterStep (companies.map (fun c => (c, normalize_company c)))) []

theorem addToResult_sound (P : Email → Prop) :
    ∀ (res : List (PyStr × List Email)) (c : PyStr) (e : Email),
      (∀ p ∈ res, ∀ x ∈ p.2, P x) → P e →
      ∀ p ∈ addToResult res c e, ∀ x ∈ p.2, P x := by
  intro res
  induction res with
  | nil =>
    intro c e _ he p hp x hx
    simp only [addToResult, List.mem_singleton] at hp
    subst hp
    simp only [List.mem_singleton] at hx
    subst hx
    exact he
  | cons q rest ih =>
    intro c e hres he p hp x hx
    obtain ⟨c', es⟩ := q
    unfold addToResult at hp
    by_cases hc : c' = c
    · rw [if_pos hc] at hp
      rcases List.mem_cons.mp hp with h | h
      · subst h
        rcases List.mem_append.mp hx with h1 | h1
        · exact hres (c', es) (List.mem_cons_self ..) x h1
        · simp only [List.mem_singleton] at h1
          subst h1
          exact he
      · exact hres p (List.mem_cons_of_mem _ h) x hx
    · rw [if_neg hc] at hp
      rcases List.mem_cons.mp hp with h | h
      · subst h
        exact hres (c', es) (List.mem_cons_self ..) x hx
      · exact ih c e (fun q hq => hres q (List.mem_cons_of_mem _ hq)) he p h x hx

theorem filterStep_sound (ncs : List (PyStr × PyStr))
    (res : List (PyStr × List Email)) (email : Email)
    (hres : ∀ p ∈ res, ∀ x ∈ p.2, should_skip x = false) :
    ∀ p ∈ filterStep ncs res email, ∀ x ∈ p.2, should_skip x = false := by
  unfold filterStep
  by_cases hs : should_skip email
  · rw [if_pos hs]
    exact hres
  · rw [if_neg hs]
    have he : should_skip email = false := by simpa using hs
    cases h1 : firstMatch ncs (normalize_soft email.head) with
    | some c => exact addToResult_sound _ res c email hres he
    | none =>
      by_cases h2 : email.text_full.take 6000 = []
      · rw [if_pos h2]
        exact hres
      · rw [if_neg h2]
        cases h3 : firstMatch ncs (normalize_soft (email.text_full.take 6000)) with
        | some c => exact addToResult_sound _ res c email hres he
        | none => exact hres

theorem filter_foldl_sound (ncs : List (PyStr × PyStr)) :
    ∀ (emails : List Email) (res : List (PyStr × List Email)),
      (∀ p ∈ res, ∀ x ∈ p.2, should_skip x = false) →
      ∀ p ∈ emails.foldl (filterStep ncs) res, ∀ x ∈ p.2,
        should_skip x = false := by
  intro emails
  induction emails with
  | nil => intro res hres; exact hres
  | cons em ems ih =>
    intro res hres
    rw [List.foldl_cons]
    exact ih _ (filterStep_sound ncs res em hres)

/-- The noise-skip scenario summary: subject `"New Job Alert"`, with the
entity name present in both head and body. -/
def jobAlertEmail : Email :=
  { id := ("m1").toList, sender := [], subject := ("New Job Alert").toList,
    text_full := ("acme is hiring").toList, head := ("acme is hiring").toList,
    internalDate := some 1, threadId := [] }

/-- An ordinary summary mentioning the entity, not matching any noise hint. -/
def acmeEmail : Email :=
  { id := ("m2").toList, sender := [], subject := ("hello").toList,
    text_full := ("acme team").toList, head := ("acme team").toList,
    internalDate := some 2, threadId := [] }

/-- C7: a summary whose normalized `subject + head` contains a configured
noise marker is discarded by `filter_by_company` before any entity matching:
every email appearing in the result satisfies `should_skip = false`
(so a skipped summary is attributed to no entity, whatever its head or body
contain), and concretely the `"New Job Alert"` summary is attributed to no
company even though its head and body contain the company name. -/
theorem filter_by_company_noise_skip :
    (∀ (emails : List Email) (companies : List PyStr) (c : PyStr)
        (l : List Email) (e : Email),
      (c, l) ∈ filter_by_company emails companies → e ∈ l →
        should_skip e = false)
    ∧ should_skip jobAlertEmail = true
    ∧ filter_by_company [jobAlertEmail] [("Acme").toList] = [] := by
  refine ⟨?_, by decide, by decide⟩
  intro emails companies c l e hcl hel
  exact filter_foldl_sound _ emails [] (by simp) (c, l) hcl e hel

/-- Witness for C7: a concrete non-noise summary is attributed to its
company, and the theorem applied at that entry yields `should_skip = false`. -/
theorem filter_by_company_noise_skip_witness :
    ((("Acme").toList, [acmeEmail])
        ∈ filter_by_company [acmeEmail] [("Acme").toList])
    ∧ should_skip acmeEmail = false :=
  ⟨by decide,
    filter_by_company_noise_skip.1 [acmeEmail] [("Acme").toList]
      (("Acme").toList) [acmeEmail] acmeEmail (by decide) (by decide)⟩

/-- The `_ts` helper of `classify_latest`: `int(msg.get("internalDate") or 0)`
with missing / unparseable values collapsing to `0`. -/
def _ts (m : Email) : Int := m.internalDate.getD 0

/-- Python's `max(emails, key=_ts)`: the first element attaining the maximal
key; a later element replaces the current best only when strictly greater. -/
def maxByTs (best : Email) : List Email → Email
  | [] => best
  | e :: es => if _ts e > _ts best then maxByTs e es else maxByTs best es

/-- `sorted(..., key=len, reverse=True)`: stable sort, longest first. -/
def sortLenDesc (l : List PyStr) : List PyStr :=
  l.mergeSort (fun a b => b.length ≤ a.length)

/-- The normalized positive phrases (`[normalize_soft(p) for p in PHRASES_POS
if p]`), before sorting. -/
def posAll : List PyStr :=
  (PHRASES_POS.filter (fun p => !p.isEmpty)).map normalize_soft

/-- The normalized negative phrases, before sorting. -/
def negAll : List PyStr :=
  (PHRASES_NEG.filter (fun p => !p.isEmpty)).map normalize_soft

/-- `_build_phrase_indexes` first component: normalized positive phrases,
longest first. -/
def pos_norm : List PyStr := sortLenDesc posAll

/-- `_build_phrase_indexes` second component. -/
def neg_norm : List PyStr := sortLenDesc negAll

/-- The running-minimum loop of `_first_hit_indices` over one phrase class:
`idx` is the best index so far, `-1` when none was found yet; a phrase
updates it when it occurs and its index improves
(`if i != -1 and (idx == -1 or i < idx)`). -/
def firstHitAux (text : PyStr) : Int → List PyStr → Int
  | idx, [] => idx
  | idx, p :: ps =>
    if pyFind text p ≠ -1 ∧ (idx = -1 ∨ pyFind text p < idx) then
      firstHitAux text (pyFind text p) ps
    else firstHitAux text idx ps

/-- `_first_hit_indices` from `src/app/utils/filters.py`. -/
def _first_hit_indices (text : PyStr) (pos neg : List PyStr) : Int × Int :=
  (firstHitAux text (-1) pos, firstHitAux text (-1) neg)

/-- The outcome buckets. -/
inductive Bucket
  | approve
  | decline
  | review
deriving DecidableEq, Repr

/-- The classification if-chain of `classify_latest`. -/
def decideBucket (pos_idx neg_idx : Int) : Bucket :=
  if pos_idx = -1 ∧ neg_idx = -1 then Bucket.review
  else if pos_idx ≠ -1 ∧ neg_idx = -1 then Bucket.approve
  else if neg_idx ≠ -1 ∧ pos_idx = -1 then Bucket.decline
  else if pos_idx < neg_idx then Bucket.approve
  else Bucket.decline

/-- The three result dictionaries of `classify_latest`. -/
structure Buckets where
  approve : List (PyStr × List Email)
  decline : List (PyStr × List Email)
  review : List (PyStr × List Email)
deriving DecidableEq, Repr

/-- Select one of the three dictionaries. -/
def bucketList (out : Buckets) : Bucket → List (PyStr × List Email)
  | Bucket.approve => out.approve
  | Bucket.decline => out.decline
  | Bucket.review => out.review

/-- `out[bucket].setdefault(company, []).append(latest)`: dictionary keys are
unique per run, so each insertion contributes the singleton entry
`(company, [latest])`; consing while recursing on the remaining companies
reproduces the source's iteration order. -/
def addBucket (b : Bucket) (c : PyStr) (e : Email) (out : Buckets) : Buckets :=
  match b with
  | Bucket.approve => { out with approve := (c, [e]) :: out.approve }
  | Bucket.decline => { out with decline := (c, [e]) :: out.decline }
  | Bucket.review => { out with review := (c, [e]) :: out.review }

/-- `classify_latest` from `src/app/utils/filters.py`: per company, skip empty
lists, select the newest email by `internalDate`, and classify its normalized
head by first-hit. -/
def classify_latest : List (PyStr × List Email) → Buckets
  | [] => ⟨[], [], []⟩
  | (c, es) :: rest =>
    match es with
    | [] => classify_latest rest
    | e :: tl =>
      addBucket
        (decideBucket
          (firstHitAux (normalize_soft (maxByTs e tl).head) (-1) pos_norm)
          (firstHitAux (normalize_soft (maxByTs e tl).head) (-1) neg_norm))
        c (maxByTs e tl) (classify_latest rest)

/-- The `str.find` results of the phrases that do occur in `text`. -/
def hitIndices (text : PyStr) (phrases : List PyStr) : List Nat :=
  phrases.filterMap (fun p => findAux p text 0)

/-- Minimum of a list of naturals, `none` on the empty list. -/
def minNat? : List Nat → Option Nat
  | [] => none
  | n :: ns =>
    match minNat? ns with
    | none => some n
    | some m => some (min n m)

/-- Merge two optional minima. -/
def ominN : Option Nat → Option Nat → Option Nat
  | none, b => b
  | some a, none => some a
  | some a, some b => some (min a b)

/-- The integer representation used by `_first_hit_indices`: `-1` for "not
found". -/
def repInt : Option Nat → Int
  | none => -1
  | some n => (n : Int)

theorem minNat?_cons (n : Nat) (ns : List Nat) :
    minNat? (n :: ns) = ominN (some n) (minNat? ns) := by
  cases h : minNat? ns with
  | none => simp [minNat?, h, ominN]
  | some m => simp [minNat?, h, ominN]

theorem ominN_none_right (a : Option Nat) : ominN a none = a := by
  cases a <;> rfl

theorem pyFind_eq_some (t p : PyStr) (i : Nat) (h : findAux p t 0 = some i) :
    pyFind t p = (i : Int) := by
  unfold pyFind
  rw [h]

theorem pyFind_eq_none (t p : PyStr) (h : findAux p t 0 = none) :
    pyFind t p = -1 := by
  unfold pyFind
  rw [h]

theorem firstHitAux_min (text : PyStr) :
    ∀ (ps : List PyStr) (acc : Option Nat),
      firstHitAux text (repInt acc) ps
        = repInt (ominN acc (minNat? (hitIndices text ps))) := by
  intro ps
  induction ps with
  | nil =>
    intro acc
    simp [firstHitAux, hitIndices, minNat?, ominN_none_right]
  | cons p ps ih =>
    intro acc
    unfold firstHitAux
    cases hf : findAux p text 0 with
    | none =>
      rw [pyFind_eq_none text p hf, if_neg (by simp)]
      have hhit : hitIndices text (p :: ps) = hitIndices text ps := by
        simp [hitIndices, List.filterMap_cons, hf]
      rw [hhit]
      exact ih acc
    | some i =>
      rw [pyFind_eq_some text p i hf]
      have hhit : hitIndices text (p :: ps) = i :: hitIndices text ps := by
        simp [hitIndices, List.filterMap_cons, hf]
      rw [hhit, minNat?_cons]
      have hine : (i : Int) ≠ -1 := by omega
      cases acc with
      | none =>
        rw [if_pos ⟨hine, Or.inl rfl⟩]
        exact ih (some i)
      | some a =>
        by_cases hlt : (i : Int) < (a : Int)
        · rw [if_pos ⟨hine, Or.inr hlt⟩]
          have h1 : firstHitAux text ((i : Nat) : Int) ps
              = repInt (ominN (some i) (minNat? (hitIndices text ps))) :=
            ih (some i)
          rw [h1]
          apply congrArg
          have hia : i < a := by exact_mod_cast hlt
          cases hM : minNat? (hitIndices text ps) with
          | none => simp [ominN]; omega
          | some m => simp [ominN]; omega
        · have hne : ¬((i : Int) ≠ -1
              ∧ (repInt (some a) = -1 ∨ (i : Int) < repInt (some a))) := by
            simp only [repInt]
            push_neg
            intro _
            refine ⟨by omega, by omega⟩
          rw [if_neg hne]
          have h1 := ih (some a)
          rw [h1]
          apply congrArg
          have hai : a ≤ i := by omega
          cases hM : minNat? (hitIndices text ps) with
          | none => simp [ominN]; omega
          | some m => simp [ominN]; omega

theorem minNat?_eq_none_iff (l : List Nat) : minNat? l = none ↔ l = [] := by
  cases l with
  | nil => simp [minNat?]
  | cons n ns =>
    rw [minNat?_cons]
    cases minNat? ns <;> simp [ominN]

theorem minNat?_eq_some_iff (l : List Nat) :
    ∀ (a : Nat), minNat? l = some a ↔ a ∈ l ∧ ∀ b ∈ l, a ≤ b := by
  induction l with
  | nil => intro a; simp [minNat?]
  | cons n ns ih =>
    intro a
    rw [minNat?_cons]
    cases hM : minNat? ns with
    | none =>
      have hns : ns = [] := (minNat?_eq_none_iff ns).mp hM
      subst hns
      rw [show ominN (some n) none = some n from rfl, Option.some_inj]
      constructor
      · intro h
        subst h
        refine ⟨List.mem_cons_self .., ?_⟩
        intro b hb
        simp only [List.mem_cons, List.not_mem_nil, or_false] at hb
        omega
      · intro ⟨h1, h2⟩
        have := h2 n (List.mem_cons_self ..)
        simp only [List.mem_cons, List.not_mem_nil, or_false] at h1
        omega
    | some m =>
      obtain ⟨hm_mem, hm_min⟩ := (ih m).mp hM
      rw [show ominN (some n) (some m) = some (min n m) from rfl,
        Option.some_inj]
      constructor
      · intro h
        subst h
        by_cases hnm : n ≤ m
        · rw [Nat.min_eq_left hnm]
          refine ⟨List.mem_cons_self .., ?_⟩
          intro b hb
          rcases List.mem_cons.mp hb with h | h
          · omega
          · have := hm_min b h
            omega
        · rw [Nat.min_eq_right (by omega)]
          refine ⟨List.mem_cons_of_mem _ hm_mem, ?_⟩
          intro b hb
          rcases List.mem_cons.mp hb with h | h
          · omega
          · exact hm_min b h
      · intro ⟨h1, h2⟩
        have han : a ≤ n := h2 n (List.mem_cons_self ..)
        have ham : a ≤ m := h2 m (List.mem_cons_of_mem _ hm_mem)
        rcases List.mem_cons.mp h1 with h | h
        · subst h
          omega
        · have := hm_min a h
          omega

theorem minNat?_perm (l l' : List Nat) (h : l.Perm l') :
    minNat? l = minNat? l' := by
  cases hM : minNat? l with
  | none =>
    rw [minNat?_eq_none_iff] at hM
    subst hM
    have h2 : l' = [] := h.symm.eq_nil
    rw [h2]
    rfl
  | some a =>
    obtain ⟨h1, h2⟩ := (minNat?_eq_some_iff l a).mp hM
    symm
    rw [minNat?_eq_some_iff]
    exact ⟨h.subset h1, fun b hb => h2 b (h.symm.subset hb)⟩

theorem hitIndices_sort (text : PyStr) (l : List PyStr) :
    minNat? (hitIndices text (sortLenDesc l)) = minNat? (hitIndices text l) := by
  apply minNat?_perm
  exact List.Perm.filterMap _ (List.mergeSort_perm l _)

theorem classify_latest_cons_pos (c : PyStr) (e : Email) (tl : List Email)
    (rest : List (PyStr × List Email)) :
    classify_latest ((c, e :: tl) :: rest)
      = addBucket
          (decideBucket
            (firstHitAux (normalize_soft (maxByTs e tl).head) (-1) pos_norm)
            (firstHitAux (normalize_soft (maxByTs e tl).head) (-1) neg_norm))
          c (maxByTs e tl) (classify_latest rest) := rfl

theorem classify_latest_cons_nil (c : PyStr)
    (rest : List (PyStr × List Email)) :
    classify_latest ((c, ([] : List Email)) :: rest) = classify_latest rest :=
  rfl

theorem bucketList_addBucket_same (b : Bucket) (c : PyStr) (e : Email)
    (out : Buckets) :
    bucketList (addBucket b c e out) b = (c, [e]) :: bucketList out b := by
  cases b <;> rfl

theorem bucketList_addBucket_mem (b b' : Bucket) (c : PyStr) (e : Email)
    (out : Buckets) (p : PyStr × List Email) (hp : p ∈ bucketList out b') :
    p ∈ bucketList (addBucket b c e out) b' := by
  cases b <;> cases b' <;>
    first
      | exact hp
      | exact List.mem_cons_of_mem _ hp

theorem bucketList_addBucket_ne (b B : Bucket) (hne : B ≠ b) (c : PyStr)
    (e : Email) (out : Buckets) :
    bucketList (addBucket b c e out) B = bucketList out B := by
  cases b <;> cases B <;> first | rfl | exact absurd rfl hne

theorem classify_latest_mem :
    ∀ (filtered : List (PyStr × List Email)) (c : PyStr) (e : Email)
      (tl : List Email), (c, e :: tl) ∈ filtered →
      (c, [maxByTs e tl]) ∈ bucketList (classify_latest filtered)
        (decideBucket
          (firstHitAux (normalize_soft (maxByTs e tl).head) (-1) pos_norm)
          (firstHitAux (normalize_soft (maxByTs e tl).head) (-1) neg_norm)) := by
  intro filtered
  induction filtered with
  | nil => intro c e tl h; simp at h
  | cons q rest ih =>
    intro c e tl h
    obtain ⟨c', es'⟩ := q
    rcases List.mem_cons.mp h with heq | hmem
    · injection heq with h1 h2
      subst h1
      subst h2
      rw [classify_latest_cons_pos, bucketList_addBucket_same]
      exact List.mem_cons_self ..
    · cases es' with
      | nil =>
        rw [classify_latest_cons_nil]
        exact ih c e tl hmem
      | cons e' tl' =>
        rw [classify_latest_cons_pos]
        exact bucketList_addBucket_mem _ _ _ _ _ _ (ih c e tl hmem)

theorem classify_latest_mem_inv :
    ∀ (filtered : List (PyStr × List Email)) (B : Bucket) (c : PyStr)
      (l : List Email),
      (c, l) ∈ bucketList (classify_latest filtered) B →
      ∃ e tl, (c, e :: tl) ∈ filtered ∧ l = [maxByTs e tl]
        ∧ B = decideBucket
            (firstHitAux (normalize_soft (maxByTs e tl).head) (-1) pos_norm)
            (firstHitAux (normalize_soft (maxByTs e tl).head) (-1) neg_norm) := by
  intro filtered
  induction filtered with
  | nil =>
    intro B c l h
    cases B <;> simp [classify_latest, bucketList] at h
  | cons q rest ih =>
    intro B c l h
    obtain ⟨c', es'⟩ := q
    cases es' with
    | nil =>
      rw [classify_latest_cons_nil] at h
      obtain ⟨e, tl, h1, h2, h3⟩ := ih B c l h
      exact ⟨e, tl, List.mem_cons_of_mem _ h1, h2, h3⟩
    | cons e' tl' =>
      rw [classify_latest_cons_pos] at h
      by_cases hB : B = decideBucket
          (firstHitAux (normalize_soft (maxByTs e' tl').head) (-1) pos_norm)
          (firstHitAux (normalize_soft (maxByTs e' tl').head) (-1) neg_norm)
      · subst hB
        rw [bucketList_addBucket_same] at h
        rcases List.mem_cons.mp h with h | h
        · injection h with h1 h2
          subst h1
          exact ⟨e', tl', List.mem_cons_self .., h2, rfl⟩
        · obtain ⟨e, tl, h1, h2, h3⟩ := ih _ c l h
          exact ⟨e, tl, List.mem_cons_of_mem _ h1, h2, h3⟩
      · rw [bucketList_addBucket_ne _ _ hB] at h
        obtain ⟨e, tl, h1, h2, h3⟩ := ih _ c l h
        exact ⟨e, tl, List.mem_cons_of_mem _ h1, h2, h3⟩

theorem firstHit_minAll (H : PyStr) (l : List PyStr) :
    firstHitAux H (-1) (sortLenDesc l) = repInt (minNat? (hitIndices H l)) := by
  have h : firstHitAux H (repInt none) (sortLenDesc l)
      = repInt (ominN none (minNat? (hitIndices H (sortLenDesc l)))) :=
    firstHitAux_min H (sortLenDesc l) none
  rw [hitIndices_sort] at h
  exact h

theorem decideBucket_rep_none_none :
    decideBucket (repInt none) (repInt none) = Bucket.review := by decide

theorem decideBucket_rep_some_none (i : Nat) :
    decideBucket (repInt (some i)) (repInt none) = Bucket.approve := by
  show decideBucket ((i : Nat) : Int) (-1) = Bucket.approve
  unfold decideBucket
  rw [if_neg (by omega), if_pos (by omega)]

theorem decideBucket_rep_none_some (j : Nat) :
    decideBucket (repInt none) (repInt (some j)) = Bucket.decline := by
  show decideBucket (-1) ((j : Nat) : Int) = Bucket.decline
  unfold decideBucket
  rw [if_neg (by omega), if_neg (by omega), if_pos (by omega)]

theorem decideBucket_rep_some_some (i j : Nat) :
    decideBucket (repInt (some i)) (repInt (some j))
      = if i < j then Bucket.approve else Bucket.decline := by
  show decideBucket ((i : Nat) : Int) ((j : Nat) : Int)
      = if i < j then Bucket.approve else Bucket.decline
  unfold decideBucket
  rw [if_neg (by omega), if_neg (by omega), if_neg (by omega)]
  by_cases h : i < j
  · rw [if_pos (show ((i : Nat) : Int) < ((j : Nat) : Int) by omega), if_pos h]
  · rw [if_neg (show ¬(((i : Nat) : Int) < ((j : Nat) : Int)) by omega),
      if_neg h]

/-- C5: for every entity in the filtered input to `classify_latest`, the
selected summary's normalized head is classified by first-hit against the
configured phrase lists: no positive and no negative hit goes to `review`;
only a positive hit to `approve`; only a negative hit to `decline`; and when
both occur, `approve` exactly when the minimum start index over all positive
phrases is strictly below the minimum over all negative phrases, with an
equal-index tie going to `decline`.  The minima are `minNat?` over the
`str.find` results of all normalized phrases (`posAll` / `negAll`). -/
theorem classify_latest_first_hit (filtered : List (PyStr × List Email))
    (c : PyStr) (e : Email) (tl : List Email)
    (hmem : (c, e :: tl) ∈ filtered) :
    (minNat? (hitIndices (normalize_soft (maxByTs e tl).head) posAll) = none →
     minNat? (hitIndices (normalize_soft (maxByTs e tl).head) negAll) = none →
      (c, [maxByTs e tl]) ∈ (classify_latest filtered).review)
    ∧ (∀ i,
        minNat? (hitIndices (normalize_soft (maxByTs e tl).head) posAll)
          = some i →
        minNat? (hitIndices (normalize_soft (maxByTs e tl).head) negAll)
          = none →
        (c, [maxByTs e tl]) ∈ (classify_latest filtered).approve)
    ∧ (∀ j,
        minNat? (hitIndices (normalize_soft (maxByTs e tl).head) posAll)
          = none →
        minNat? (hitIndices (normalize_soft (maxByTs e tl).head) negAll)
          = some j →
        (c, [maxByTs e tl]) ∈ (classify_latest filtered).decline)
    ∧ (∀ i j,
        minNat? (hitIndices (normalize_soft (maxByTs e tl).head) posAll)
          = some i →
        minNat? (hitIndices (normalize_soft (maxByTs e tl).head) negAll)
          = some j →
        ((i < j → (c, [maxByTs e tl]) ∈ (classify_latest filtered).approve)
          ∧ (j ≤ i →
              (c, [maxByTs e tl]) ∈ (classify_latest filtered).decline))) := by
  have hm := classify_latest_mem filtered c e tl hmem
  rw [show pos_norm = sortLenDesc posAll from rfl,
    show neg_norm = sortLenDesc negAll from rfl,
    firstHit_minAll, firstHit_minAll] at hm
  refine ⟨?_, ?_, ?_, ?_⟩
  · intro hp hn
    rw [hp, hn, decideBucket_rep_none_none] at hm
    exact hm
  · intro i hp hn
    rw [hp, hn, decideBucket_rep_some_none] at hm
    exact hm
  · intro j hp hn
    rw [hp, hn, decideBucket_rep_none_some] at hm
    exact hm
  · intro i j hp hn
    rw [hp, hn, decideBucket_rep_some_some] at hm
    constructor
    · intro hij
      rw [if_pos hij] at hm
      exact hm
    · intro hji
      rw [if_neg (by omega)] at hm
      exact hm

/-- A summary whose head is exactly the positive phrase `approve`. -/
def approveEmail : Email :=
  { id := ("m3").toList, sender := [], subject := [],
    text_full := ("approve").toList, head := ("approve").toList,
    internalDate := some 5, threadId := [] }

/-- Witness for C5: the single-entry input whose chosen head contains the
positive phrase `approve` at index 0 and no negative phrase; the theorem
places the entity in the `approve` bucket. -/
theorem classify_latest_first_hit_witness :
    ((("acme").toList, [approveEmail])
        ∈ [((("acme").toList), [approveEmail])])
    ∧ (minNat?
        (hitIndices (normalize_soft (maxByTs approveEmail []).head) posAll)
        = some 0)
    ∧ (minNat?
        (hitIndices (normalize_soft (maxByTs approveEmail []).head) negAll)
        = none)
    ∧ ((("acme").toList, [maxByTs approveEmail []])
        ∈ (classify_latest [((("acme").toList), [approveEmail])]).approve) :=
  ⟨by decide, by decide, by decide,
    (classify_latest_first_hit [((("acme").toList), [approveEmail])]
        (("acme").toList) approveEmail [] (by decide)).2.1 0 (by decide)
      (by decide)⟩

theorem maxByTs_cons (best e : Email) (es : List Email) :
    maxByTs best (e :: es)
      = if _ts e > _ts best then maxByTs e es else maxByTs best es := rfl

theorem maxByTs_spec :
    ∀ (tl : List Email) (e : Email),
      ∃ pre post, e :: tl = pre ++ maxByTs e tl :: post
        ∧ (∀ m ∈ pre, _ts m < _ts (maxByTs e tl))
        ∧ (∀ m ∈ e :: tl, _ts m ≤ _ts (maxByTs e tl)) := by
  intro tl
  induction tl with
  | nil =>
    intro e
    refine ⟨[], [], rfl, by simp, ?_⟩
    intro m hm
    simp only [List.mem_cons, List.not_mem_nil, or_false] at hm
    subst hm
    exact le_refl _
  | cons x rest ih =>
    intro e
    by_cases hxe : _ts x > _ts e
    · obtain ⟨pre', post', hsplit, hpre, hall⟩ := ih x
      have hL : maxByTs e (x :: rest) = maxByTs x rest := by
        rw [maxByTs_cons, if_pos hxe]
      rw [hL]
      have hxL : _ts x ≤ _ts (maxByTs x rest) :=
        hall x (List.mem_cons_self ..)
      refine ⟨e :: pre', post', ?_, ?_, ?_⟩
      · simp only [List.cons_append, List.cons.injEq, true_and]
        exact hsplit
      · intro m hm
        rcases List.mem_cons.mp hm with h | h
        · subst h
          omega
        · exact hpre m h
      · intro m hm
        rcases List.mem_cons.mp hm with h | h
        · subst h
          omega
        · exact hall m h
    · obtain ⟨pre2, post2, hsplit, hpre, hall⟩ := ih e
      have hL : maxByTs e (x :: rest) = maxByTs e rest := by
        rw [maxByTs_cons, if_neg hxe]
      rw [hL]
      have heL : _ts e ≤ _ts (maxByTs e rest) :=
        hall e (List.mem_cons_self ..)
      cases pre2 with
      | nil =>
        simp only [List.nil_append] at hsplit
        injection hsplit with h1 h2
        refine ⟨[], x :: rest, ?_, by simp, ?_⟩
        · rw [List.nil_append, ← h1]
        · intro m hm
          rcases List.mem_cons.mp hm with h | h
          · subst h
            exact heL
          · rcases List.mem_cons.mp h with h3 | h3
            · subst h3
              omega
            · exact hall m (List.mem_cons_of_mem _ h3)
      | cons p2 pre2' =>
        simp only [List.cons_append] at hsplit
        injection hsplit with h1 h2
        have hpe : _ts e < _ts (maxByTs e rest) := by
          have hh := hpre p2 (List.mem_cons_self ..)
          rw [← h1] at hh
          exact hh
        refine ⟨e :: x :: pre2', post2, ?_, ?_, ?_⟩
        · simp only [List.cons_append, List.cons.injEq, true_and]
          exact h2
        · intro m hm
          rcases List.mem_cons.mp hm with h | h
          · subst h
            exact hpe
          · rcases List.mem_cons.mp h with h3 | h3
            · subst h3
              omega
            · exact hpre m (List.mem_cons_of_mem _ h3)
        · intro m hm
          rcases List.mem_cons.mp hm with h | h
          · subst h
            exact heL
          · rcases List.mem_cons.mp h with h3 | h3
            · subst h3
              omega
            · exact hall m (List.mem_cons_of_mem _ h3)

theorem keys_nodup_unique {β : Type} :
    ∀ (l : List (PyStr × β)), (l.map Prod.fst).Nodup →
      ∀ (c : PyStr) (a b : β), (c, a) ∈ l → (c, b) ∈ l → a = b := by
  intro l
  induction l with
  | nil => intro _ c a b ha _; simp at ha
  | cons q rest ih =>
    intro hnd c a b ha hb
    obtain ⟨c0, v0⟩ := q
    rw [List.map_cons, List.nodup_cons] at hnd
    obtain ⟨hnotin, hnd2⟩ := hnd
    rcases List.mem_cons.mp ha with ha1 | ha1
    · injection ha1 with hc hv
      rcases List.mem_cons.mp hb with hb1 | hb1
      · injection hb1 with hc2 hv2
        rw [hv, hv2]
      · rw [hc] at hb1
        exact absurd (List.mem_map.mpr ⟨(c0, b), hb1, rfl⟩) hnotin
    · rcases List.mem_cons.mp hb with hb1 | hb1
      · injection hb1 with hc2 hv2
        rw [hc2] at ha1
        exact absurd (List.mem_map.mpr ⟨(c0, a), ha1, rfl⟩) hnotin
      · exact ih hnd2 c a b ha1 hb1

/-- C10: with unique entity keys, the three buckets returned by
`classify_latest` have pairwise disjoint key sets; an entity with an empty
input list appears in no bucket; an entity with a non-empty list appears in
exactly one bucket, with the singleton list holding the selected summary; and
the selected summary is the first-listed one of maximal timestamp (missing
timestamps count as `0` through `_ts`). -/
theorem classify_latest_buckets (filtered : List (PyStr × List Email))
    (hnd : (filtered.map Prod.fst).Nodup) :
    (∀ B1 B2 : Bucket, B1 ≠ B2 → ∀ c : PyStr,
      c ∈ (bucketList (classify_latest filtered) B1).map Prod.fst →
      c ∉ (bucketList (classify_latest filtered) B2).map Prod.fst)
    ∧ (∀ c : PyStr, (c, ([] : List Email)) ∈ filtered →
        ∀ B : Bucket,
          c ∉ (bucketList (classify_latest filtered) B).map Prod.fst)
    ∧ (∀ (c : PyStr) (e : Email) (tl : List Email), (c, e :: tl) ∈ filtered →
        ∃ B : Bucket,
          (c, [maxByTs e tl]) ∈ bucketList (classify_latest filtered) B
            ∧ ∀ (B' : Bucket) (l : List Email),
                (c, l) ∈ bucketList (classify_latest filtered) B' →
                  B' = B ∧ l = [maxByTs e tl])
    ∧ (∀ (e : Email) (tl : List Email),
        ∃ pre post, e :: tl = pre ++ maxByTs e tl :: post
          ∧ (∀ m ∈ pre, _ts m < _ts (maxByTs e tl))
          ∧ (∀ m ∈ e :: tl, _ts m ≤ _ts (maxByTs e tl))) := by
  have huniq : ∀ (B' : Bucket) (c : PyStr) (l : List Email) (e : Email)
      (tl : List Email), (c, e :: tl) ∈ filtered →
      (c, l) ∈ bucketList (classify_latest filtered) B' →
      B' = decideBucket
          (firstHitAux (normalize_soft (maxByTs e tl).head) (-1) pos_norm)
          (firstHitAux (normalize_soft (maxByTs e tl).head) (-1) neg_norm)
        ∧ l = [maxByTs e tl] := by
    intro B' c l e tl hmem hl
    obtain ⟨e2, tl2, hmem2, hl2, hB2⟩ := classify_latest_mem_inv filtered B' c l hl
    have hsame : e :: tl = e2 :: tl2 :=
      keys_nodup_unique filtered hnd c (e :: tl) (e2 :: tl2) hmem hmem2
    injection hsame with h1 h2
    rw [← h1, ← h2] at hl2 hB2
    exact ⟨hB2, hl2⟩
  refine ⟨?_, ?_, ?_, fun e tl => maxByTs_spec tl e⟩
  · intro B1 B2 hne c hc1 hc2
    obtain ⟨p1, hp1, hp1e⟩ := List.mem_map.mp hc1
    obtain ⟨p2, hp2, hp2e⟩ := List.mem_map.mp hc2
    obtain ⟨ca, la⟩ := p1
    obtain ⟨cb, lb⟩ := p2
    simp only at hp1e hp2e
    rw [hp1e] at hp1
    rw [hp2e] at hp2
    obtain ⟨e1, tl1, hm1, _, hB1⟩ := classify_latest_mem_inv filtered B1 c la hp1
    obtain ⟨hB2, _⟩ := huniq B2 c lb e1 tl1 hm1 hp2
    rw [hB2] at hne
    exact hne hB1
  · intro c hcnil B hc
    obtain ⟨p, hp, hpe⟩ := List.mem_map.mp hc
    obtain ⟨ca, la⟩ := p
    simp only at hpe
    rw [hpe] at hp
    obtain ⟨e1, tl1, hm1, _, _⟩ := classify_latest_mem_inv filtered B c la hp
    have : ([] : List Email) = e1 :: tl1 :=
      keys_nodup_unique filtered hnd c [] (e1 :: tl1) hcnil hm1
    exact List.noConfusion this
  · intro c e tl hmem
    refine ⟨decideBucket
        (firstHitAux (normalize_soft (maxByTs e tl).head) (-1) pos_norm)
        (firstHitAux (normalize_soft (maxByTs e tl).head) (-1) neg_norm),
      classify_latest_mem filtered c e tl hmem, ?_⟩
    intro B' l hl
    exact huniq B' c l e tl hmem hl

/-- A summary whose head matches no positive or negative phrase. -/
def reviewEmail : Email :=
  { id := ("m4").toList, sender := [], subject := [],
    text_full := ("hello there").toList, head := ("hello there").toList,
    internalDate := none, threadId := [] }

/-- Witness for C10: a concrete one-entity input with unique keys; the
theorem yields the unique bucket holding the singleton entry. -/
theorem classify_latest_buckets_witness :
    ((([((("acme2").toList), [reviewEmail])]
        : List (PyStr × List Email)).map Prod.fst).Nodup)
    ∧ (((("acme2").toList), [reviewEmail])
        ∈ ([((("acme2").toList), [reviewEmail])]
            : List (PyStr × List Email)))
    ∧ (∃ B : Bucket,
        ((("acme2").toList), [maxByTs reviewEmail []])
            ∈ bucketList
                (classify_latest [((("acme2").toList), [reviewEmail])]) B
          ∧ ∀ (B' : Bucket) (l : List Email),
              ((("acme2").toList), l)
                  ∈ bucketList
                      (classify_latest [((("acme2").toList), [reviewEmail])])
                      B' →
                B' = B ∧ l = [maxByTs reviewEmail []]) :=
  ⟨by decide, by decide,
    (classify_latest_buckets [((("acme2").toList), [reviewEmail])]
        (by decide)).2.2.1 (("acme2").toList) reviewEmail [] (by decide)⟩

/-- `_QUOTE_SEPARATORS` from `GmailClient`, in source order (all lowercase in
the source). -/
def QUOTE_SEPARATORS : List PyStr :=
  [("-----original message-----").toList,
   ("original message").toList,
   ("wrote:").toList,
   ("написал").toList, ("написала").toList, ("написав").toList,
   ("пише").toList,
   ("через linkedin").toList]

/-- Python's `str.splitlines` restricted to the line boundaries occurring in
the pipeline's bodies: `\n`, `\r`, and the pair `\r\n`.  `acc` holds the
reversed pending line, `none` when no line has been started since the last
boundary; a final empty segment after the last boundary is dropped, as in
Python. -/
def splitlinesAux : PyStr → Option PyStr → List PyStr
  | [], none => []
  | [], some acc => [acc.reverse]
  | '\r' :: '\n' :: rest, acc => (acc.getD []).reverse :: splitlinesAux rest none
  | '\r' :: rest, acc => (acc.getD []).reverse :: splitlinesAux rest none
  | '\n' :: rest, acc => (acc.getD []).reverse :: splitlinesAux rest none
  | c :: rest, acc => splitlinesAux rest (some (c :: acc.getD []))

/-- Python's `str.splitlines`. -/
def splitlines (l : PyStr) : List PyStr := splitlinesAux l none

/-- `ln.lstrip().startswith(">")`. -/
def startsQuote (ln : PyStr) : Bool :=
  match ln.dropWhile Char.isWhitespace with
  | [] => false
  | c :: _ => c == '>'

/-- Python `str.casefold` on one character, for the scripts the repository
handles: ASCII and Latin-1 uppercase letters fold to their lowercase
counterparts, the sharp s (U+00DF) folds to the two-character string `ss`,
and the Cyrillic uppercase letters (А–Я, Ё, and the Ukrainian Є І Ї Ґ) fold
to lowercase; every other character is unchanged.  Unlike the
length-preserving `foldChar` used for `normalize_soft`, this model keeps the
length-changing fold of U+00DF, which the cut-index computation of
`_extract_recent_head` is sensitive to. -/
def foldCasePy (c : Char) : PyStr :=
  if 65 ≤ c.toNat ∧ c.toNat ≤ 90 then [Char.ofNat (c.toNat + 32)]
  else if c.toNat = 0xDF then ['s', 's']
  else if 0xC0 ≤ c.toNat ∧ c.toNat ≤ 0xDE ∧ c.toNat ≠ 0xD7 then
    [Char.ofNat (c.toNat + 0x20)]
  else if 0x410 ≤ c.toNat ∧ c.toNat ≤ 0x42F then [Char.ofNat (c.toNat + 0x20)]
  else if c.toNat = 0x401 then [Char.ofNat 0x451]
  else if c.toNat = 0x404 then [Char.ofNat 0x454]
  else if c.toNat = 0x406 then [Char.ofNat 0x456]
  else if c.toNat = 0x407 then [Char.ofNat 0x457]
  else if c.toNat = 0x490 then [Char.ofNat 0x491]
  else [c]

/-- Python `str.casefold` on a string: the character folds concatenated.
The result may be longer than the input. -/
def pyCasefold (s : PyStr) : PyStr := s.flatMap foldCasePy

/-- One iteration of the cut-position loop of `_extract_recent_head`:
`p = lower.find(m); if p != -1: cut = p if cut is None else min(cut, p)`. -/
def cutStep (lower : PyStr) (cut : Option Nat) (m : PyStr) : Option Nat :=
  match findAux m lower 0 with
  | none => cut
  | some p =>
    match cut with
    | none => some p
    | some c0 => some (min c0 p)

/-- The cut position: the loop over `_QUOTE_SEPARATORS`. -/
def cutFold (lower : PyStr) : Option Nat :=
  QUOTE_SEPARATORS.foldl (cutStep lower) none

/-- `head = head[:cut]` when a separator was found: the search runs in the
CASEFOLDED text (`lower = head.casefold()`), but the slice is applied to the
ORIGINAL text at that index, exactly as in the source. -/
def cutAtSeparator (raw : PyStr) : PyStr :=
  match cutFold (pyCasefold raw) with
  | none => raw
  | some cut => raw.take cut

/-- The quoted-line removal: keep the lines whose stripped form does not
start with `>`, re-joined by `"\n".join(lines)`. -/
def dropQuoted (l : PyStr) : PyStr :=
  List.intercalate ['\n'] ((splitlines l).filter (fun ln => !startsQuote ln))

/-- `if len(head) > max_chars: head = head[:max_chars]`. -/
def hardTrunc (l : PyStr) (n : Nat) : PyStr :=
  if l.length > n then l.take n else l

/-- `GmailClient._extract_recent_head`: truncate at the earliest
case-insensitive quote-separator occurrence (the text is casefolded and the
lowercase separators searched in it), drop quoted lines, hard-truncate to
`max_chars`, and strip. -/
def _extract_recent_head (raw_text : PyStr) (max_chars : Nat) : PyStr :=
  pyStrip (hardTrunc (dropQuoted (cutAtSeparator raw_text)) max_chars)

/-- Case-insensitive find in the original text, the specification's notion:
the first index `i` of the original text at which the (lowercase) marker is a
prefix of the casefolded remainder. -/
def findCIAux (m : PyStr) : PyStr → Nat → Option Nat
  | raw, i =>
    if m.isPrefixOf (pyCasefold raw) then some i
    else
      match raw with
      | [] => none
      | _ :: r => findCIAux m r (i + 1)

/-- Head derivation as C9 and §4.2 of the specification word it: truncate the
ORIGINAL text at the earliest case-insensitive occurrence of any marker from
the fixed multilingual list (the minimum over the markers of their
case-insensitive positions in the original text), then drop every quoted
line, then take at most `maxChars` characters, then strip — in exactly that
order. -/
def deriveHead (fullText : PyStr) (maxChars : Nat) : PyStr :=
  pyStrip
    ((dropQuoted
      (match minNat? (QUOTE_SEPARATORS.filterMap
          (fun m => findCIAux m fullText 0)) with
        | none => fullText
        | some cut => fullText.take cut)).take maxChars)

/-- Head derivation as the code actually behaves: the cut index is the
minimum over the markers of their first occurrence in the CASEFOLDED text,
and the ORIGINAL text is sliced at that index; then quoted-line removal,
`take maxChars`, and strip. -/
def deriveHeadFolded (fullText : PyStr) (maxChars : Nat) : PyStr :=
  pyStrip
    ((dropQuoted
      (match minNat? (QUOTE_SEPARATORS.filterMap
          (fun m => findAux m (pyCasefold fullText) 0)) with
        | none => fullText
        | some cut => fullText.take cut)).take maxChars)

theorem ominN_assoc (a b c : Option Nat) :
    ominN (ominN a b) c = ominN a (ominN b c) := by
  cases a <;> cases b <;> cases c <;> simp [ominN, min_assoc]

theorem foldl_cutStep_min (lower : PyStr) :
    ∀ (seps : List PyStr) (acc : Option Nat),
      seps.foldl (cutStep lower) acc
        = ominN acc
            (minNat? (seps.filterMap (fun m => findAux m lower 0))) := by
  intro seps
  induction seps with
  | nil =>
    intro acc
    simp [minNat?, ominN_none_right]
  | cons m ms ih =>
    intro acc
    rw [List.foldl_cons]
    cases hf : findAux m lower 0 with
    | none =>
      have hstep : cutStep lower acc m = acc := by
        unfold cutStep
        rw [hf]
      have hfm : (m :: ms).filterMap (fun m => findAux m lower 0)
          = ms.filterMap (fun m => findAux m lower 0) := by
        simp [List.filterMap_cons, hf]
      rw [hstep, hfm, ih]
    | some p =>
      have hstep : cutStep lower acc m = ominN acc (some p) := by
        unfold cutStep
        rw [hf]
        cases acc <;> rfl
      have hfm : (m :: ms).filterMap (fun m => findAux m lower 0)
          = p :: ms.filterMap (fun m => findAux m lower 0) := by
        simp [List.filterMap_cons, hf]
      rw [hstep, hfm, ih, minNat?_cons, ← ominN_assoc]

theorem cutFold_min (lower : PyStr) :
    cutFold lower
      = minNat? (QUOTE_SEPARATORS.filterMap (fun m => findAux m lower 0)) :=
  foldl_cutStep_min lower QUOTE_SEPARATORS none

theorem hardTrunc_eq_take (l : PyStr) (n : Nat) : hardTrunc l n = l.take n := by
  unfold hardTrunc
  by_cases h : l.length > n
  · rw [if_pos h]
  · rw [if_neg h]
    exact (List.take_of_length_le (by omega)).symm

theorem findAux_casefold_eq (m : PyStr) :
    ∀ (raw : PyStr) (i : Nat), (∀ c ∈ raw, (foldCasePy c).length = 1) →
      findAux m (pyCasefold raw) i = findCIAux m raw i := by
  intro raw
  induction raw with
  | nil => intro i _; rfl
  | cons c r ih =>
    intro i hlen
    have hc := hlen c (List.mem_cons_self ..)
    obtain ⟨fc, hfc⟩ : ∃ fc, foldCasePy c = [fc] := by
      cases hfcc : foldCasePy c with
      | nil => rw [hfcc] at hc; simp at hc
      | cons a l =>
        cases l with
        | nil => exact ⟨a, rfl⟩
        | cons b l2 => rw [hfcc] at hc; simp at hc
    have hpc : pyCasefold (c :: r) = fc :: pyCasefold r := by
      show foldCasePy c ++ pyCasefold r = fc :: pyCasefold r
      rw [hfc]
      rfl
    rw [hpc]
    have e1 : findAux m (fc :: pyCasefold r) i
        = if m.isPrefixOf (fc :: pyCasefold r) then some i
          else findAux m (pyCasefold r) (i + 1) := rfl
    have e2 : findCIAux m (c :: r) i
        = if m.isPrefixOf (pyCasefold (c :: r)) then some i
          else findCIAux m r (i + 1) := rfl
    rw [e1, e2, hpc]
    rw [ih (i + 1) (fun d hd => hlen d (List.mem_cons_of_mem _ hd))]

/-- C9 counterexample: the source finds the separator in the CASEFOLDED text
but slices the ORIGINAL (`p = lower.find(m)` with `lower = head.casefold()`,
then `head = head[:cut]`), and casefolding is not length-preserving
(U+00DF folds to `ss`).  On `"straße wrote: hello"` the folded text reads
`"strasse wrote: hello"` with `wrote:` at index 8, so the code keeps the
first 8 characters of the original, `"straße w"` — not the text truncated at
the earliest case-insensitive occurrence of a marker (index 7), which would
be `"straße"`.  The claim as stated is therefore false of the program. -/
theorem extract_recent_head_cx :
    _extract_recent_head (("straße wrote: hello").toList) 2000
        = ("straße w").toList
    ∧ deriveHead (("straße wrote: hello").toList) 2000 = ("straße").toList
    ∧ _extract_recent_head (("straße wrote: hello").toList) 2000
        ≠ deriveHead (("straße wrote: hello").toList) 2000 := by
  decide

/-- C9 (amended): `_extract_recent_head` truncates the original text at the
index of the earliest marker occurrence computed in the CASEFOLDED text,
then removes every line whose first non-whitespace character is `>`, then
hard-truncates to at most `max_chars` characters, then strips — in that
order; and whenever casefolding is length-preserving on the input (each
character folds to a single character, e.g. ASCII or Cyrillic text), this
coincides with the originally claimed truncation at the earliest
case-insensitive marker occurrence in the original text. -/
theorem extract_recent_head_folded_spec :
    (∀ (raw_text : PyStr) (max_chars : Nat),
      _extract_recent_head raw_text max_chars
        = deriveHeadFolded raw_text max_chars)
    ∧ (∀ (raw_text : PyStr) (max_chars : Nat),
        (∀ c ∈ raw_text, (foldCasePy c).length = 1) →
        _extract_recent_head raw_text max_chars
          = deriveHead raw_text max_chars) := by
  constructor
  · intro raw_text max_chars
    unfold _extract_recent_head deriveHeadFolded cutAtSeparator
    rw [cutFold_min, hardTrunc_eq_take]
  · intro raw_text max_chars hlen
    unfold _extract_recent_head deriveHead cutAtSeparator
    rw [cutFold_min, hardTrunc_eq_take]
    have hfun : (fun m => findAux m (pyCasefold raw_text) 0)
        = (fun m => findCIAux m raw_text 0) := by
      funext m
      exact findAux_casefold_eq m raw_text 0 hlen
    rw [hfun]

/-- Witness for C9 (amended): an all-ASCII reply with an uppercase
`WROTE:` separator and a quoted line; casefolding is length-preserving on
it, so the code agrees with the case-insensitive truncation. -/
theorem extract_recent_head_folded_witness :
    (∀ c ∈ (("Hi
> old quote
On Monday they WROTE:
older").toList),
        (foldCasePy c).length = 1)
    ∧ _extract_recent_head
        (("Hi
> old quote
On Monday they WROTE:
older").toList) 2000
      = deriveHead
          (("Hi
> old quote
On Monday they WROTE:
older").toList) 2000 :=
  ⟨by decide,
    extract_recent_head_folded_spec.2
      (("Hi
> old quote
On Monday they WROTE:
older").toList) 2000
      (by decide)⟩

/-- The in-memory pointer store (`InMemoryEmailStorage._data`): an
insertion-ordered string-to-string mapping. -/
abbrev Store := List (PyStr × PyStr)

/-- `self._data.get(key)`. -/
def storeGet (st : Store) (k : PyStr) : Option PyStr :=
  match st with
  | [] => none
  | (k0, v) :: rest => if k0 = k then some v else storeGet rest k

/-- `self._data[key] = value`. -/
def storeSet (st : Store) (k v : PyStr) : Store :=
  match st with
  | [] => [(k, v)]
  | (k0, v0) :: rest =>
    if k0 = k then (k, v) :: rest else (k0, v0) :: storeSet rest k v

/-- Python truthiness of the optional marker string (`if marker`). -/
def markerTruthy : Option PyStr → Bool
  | none => false
  | some m => !m.isEmpty

/-- The per-message stop test of `_list_until_marker`:
`if marker_id and mid == marker_id`. -/
def markerHit (marker : Option PyStr) (mid : PyStr) : Bool :=
  match marker with
  | none => false
  | some m => !m.isEmpty && mid = m

/-- `GmailClient._list_until_marker` over an idealized paginated listing: the
remote stream is the full newest-first ID sequence and pages concatenate in
order, so the paged loop is one scan that stops at the marker (exclusive,
checked before appending), at `limit` collected IDs (checked after
appending), or at stream exhaustion.  Returns `(collected_ids, seen_marker)`;
with `limit = 0` the outer `while` is never entered. -/
def listUntilMarker (marker : Option PyStr) :
    Nat → List PyStr → List PyStr × Bool
  | _, [] => ([], false)
  | 0, _ :: _ => ([], false)
  | Nat.succ k, mid :: rest =>
    if markerHit marker mid then ([], true)
    else (mid :: (listUntilMarker marker k rest).1,
      (listUntilMarker marker k rest).2)

/-- The `(ids_to_process, head_id, has_more)` triple returned by
`collect_new_messages_once`. -/
structure CollectResult where
  ids : List PyStr
  head_id : PyStr
  has_more : Bool
deriving DecidableEq, Repr

/-- The empty-branch head probe: `_list_until_marker(limit=1,
marker_id=None)`, with the fallbacks `head_id = head_probe[0] if head_probe
else ""` and `if not head_id and marker: head_id = marker`. -/
def emptyHeadId (marker : Option PyStr) (stream : List PyStr) : PyStr :=
  if (listUntilMarker none 1 stream).1.headI = [] ∧ markerTruthy marker then
    marker.getD []
  else (listUntilMarker none 1 stream).1.headI

/-- `GmailClient.collect_new_messages_once`: read the marker, scan up to
`limit` IDs stopping at the marker, and:
with no collected IDs, probe the newest ID and return `has_more = (False if
marker is None else not seen_marker)` without touching storage;
with collected IDs, return them with `head_id = ids[0]`, persist the
bootstrap marker when none was stored (`if marker is None and head_id`), and
return `has_more = (not seen_marker if marker else False)`.  The pair holds
the result and the possibly-updated storage. -/
def collect_new_messages_once (storage : Store) (stream : List PyStr)
    (pointer_key : PyStr) (limit : Nat) : CollectResult × Store :=
  if (listUntilMarker (storeGet storage pointer_key) limit stream).1 = [] then
    (⟨[], emptyHeadId (storeGet storage pointer_key) stream,
      if storeGet storage pointer_key = none then false
      else !(listUntilMarker (storeGet storage pointer_key) limit stream).2⟩,
     storage)
  else
    (⟨(listUntilMarker (storeGet storage pointer_key) limit stream).1,
      ((listUntilMarker (storeGet storage pointer_key) limit stream).1).headI,
      if markerTruthy (storeGet storage pointer_key) then
        !(listUntilMarker (storeGet storage pointer_key) limit stream).2
      else false⟩,
     if storeGet storage pointer_key = none
         ∧ ((listUntilMarker (storeGet storage pointer_key) limit
              stream).1).headI ≠ [] then
       storeSet storage pointer_key
         (((listUntilMarker (storeGet storage pointer_key) limit
              stream).1).headI)
     else storage)

/-- `GmailClient.advance_pointer_after_processing`: overwrite the marker when
`head_id` is non-empty, warn and skip otherwise (the source's extra reads are
logging only). -/
def advance_pointer_after_processing (storage : Store) (head_id : PyStr)
    (pointer_key : PyStr) : Store :=
  if head_id ≠ [] then storeSet storage pointer_key head_id else storage

theorem storeGet_storeSet_self :
    ∀ (st : Store) (k v : PyStr), storeGet (storeSet st k v) k = some v := by
  intro st
  induction st with
  | nil => intro k v; simp [storeSet, storeGet]
  | cons q rest ih =>
    intro k v
    obtain ⟨k0, v0⟩ := q
    unfold storeSet
    by_cases hk : k0 = k
    · rw [if_pos hk]
      simp [storeGet]
    · rw [if_neg hk]
      unfold storeGet
      rw [if_neg hk]
      exact ih k v

theorem storeGet_storeSet_ne :
    ∀ (st : Store) (k q v : PyStr), q ≠ k →
      storeGet (storeSet st k v) q = storeGet st q := by
  intro st
  induction st with
  | nil =>
    intro k q v hqk
    simp [storeSet, storeGet]
    intro h
    exact absurd h.symm hqk
  | cons p rest ih =>
    intro k q v hqk
    obtain ⟨k0, v0⟩ := p
    unfold storeSet
    by_cases hk : k0 = k
    · rw [if_pos hk]
      unfold storeGet
      rw [if_neg (fun h => hqk h.symm),
        if_neg (fun h => hqk ((hk.symm.trans h).symm))]
    · rw [if_neg hk]
      unfold storeGet
      by_cases hq : k0 = q
      · rw [if_pos hq, if_pos hq]
      · rw [if_neg hq, if_neg hq]
        exact ih k q v hqk

theorem listUntilMarker_nil (marker : Option PyStr) (limit : Nat) :
    listUntilMarker marker limit [] = ([], false) := by
  cases limit <;> rfl

theorem listUntilMarker_zero (marker : Option PyStr) (stream : List PyStr) :
    listUntilMarker marker 0 stream = ([], false) := by
  cases stream <;> rfl

theorem listUntilMarker_succ (marker : Option PyStr) (k : Nat) (mid : PyStr)
    (rest : List PyStr) :
    listUntilMarker marker (k + 1) (mid :: rest)
      = if markerHit marker mid then ([], true)
        else (mid :: (listUntilMarker marker k rest).1,
          (listUntilMarker marker k rest).2) := rfl

theorem markerHit_iff (M mid : PyStr) :
    markerHit (some M) mid = true ↔ M ≠ [] ∧ mid = M := by
  show (!M.isEmpty && decide (mid = M)) = true ↔ M ≠ [] ∧ mid = M
  rw [Bool.and_eq_true, Bool.not_eq_true', decide_eq_true_iff]
  rw [List.isEmpty_eq_false]

theorem markerHit_none (mid : PyStr) : markerHit none mid = false := rfl

theorem listUntilMarker_length (marker : Option PyStr) :
    ∀ (limit : Nat) (stream : List PyStr),
      (listUntilMarker marker limit stream).1.length ≤ limit := by
  intro limit
  induction limit with
  | zero =>
    intro stream
    rw [listUntilMarker_zero]
    simp
  | succ k ih =>
    intro stream
    cases stream with
    | nil =>
      rw [listUntilMarker_nil]
      simp
    | cons mid rest =>
      rw [listUntilMarker_succ]
      by_cases hm : markerHit marker mid
      · rw [if_pos hm]
        simp
      · rw [if_neg hm]
        have := ih rest
        simp only [List.length_cons]
        omega

theorem listUntilMarker_not_mem (M : PyStr) (hne : M ≠ []) :
    ∀ (limit : Nat) (stream : List PyStr),
      M ∉ (listUntilMarker (some M) limit stream).1 := by
  intro limit
  induction limit with
  | zero =>
    intro stream
    rw [listUntilMarker_zero]
    simp
  | succ k ih =>
    intro stream
    cases stream with
    | nil =>
      rw [listUntilMarker_nil]
      simp
    | cons mid rest =>
      rw [listUntilMarker_succ]
      by_cases hm : markerHit (some M) mid
      · rw [if_pos hm]
        simp
      · rw [if_neg hm]
        simp only [List.mem_cons, not_or]
        refine ⟨?_, ih rest⟩
        intro hMm
        exact hm ((markerHit_iff M mid).mpr ⟨hne, hMm.symm⟩)

theorem listUntilMarker_seen (M : PyStr) (hne : M ≠ []) :
    ∀ (limit : Nat) (stream : List PyStr),
      ((listUntilMarker (some M) limit stream).2 = true
        ↔ M ∈ stream.take limit) := by
  intro limit
  induction limit with
  | zero =>
    intro stream
    rw [listUntilMarker_zero]
    simp
  | succ k ih =>
    intro stream
    cases stream with
    | nil =>
      rw [listUntilMarker_nil]
      simp
    | cons mid rest =>
      rw [listUntilMarker_succ, List.take_succ_cons]
      by_cases hm : markerHit (some M) mid
      · rw [if_pos hm]
        obtain ⟨_, hmid⟩ := (markerHit_iff M mid).mp hm
        subst hmid
        simp
      · rw [if_neg hm]
        show (listUntilMarker (some M) k rest).2 = true ↔ _
        rw [ih rest]
        simp only [List.mem_cons]
        constructor
        · intro h
          exact Or.inr h
        · intro h
          rcases h with h | h
          · exact absurd ((markerHit_iff M mid).mpr ⟨hne, h.symm⟩) hm
          · exact h

theorem listUntilMarker_none_eq :
    ∀ (limit : Nat) (stream : List PyStr),
      listUntilMarker none limit stream = (stream.take limit, false) := by
  intro limit
  induction limit with
  | zero =>
    intro stream
    rw [listUntilMarker_zero]
    simp
  | succ k ih =>
    intro stream
    cases stream with
    | nil =>
      rw [listUntilMarker_nil]
      simp
    | cons mid rest =>
      rw [listUntilMarker_succ, if_neg (by rw [markerHit_none]; simp)]
      rw [ih rest, List.take_succ_cons]

/-- C8: `advance_pointer_after_processing` with a non-empty `head_id`
unconditionally overwrites the stored marker for `pointer_key` with `head_id`
(leaving every other key unchanged); with an empty `head_id` it is a no-op
that leaves the whole store unchanged. -/
theorem advance_pointer_spec (storage : Store) (head_id pointer_key : PyStr) :
    (head_id ≠ [] →
      storeGet (advance_pointer_after_processing storage head_id pointer_key)
          pointer_key = some head_id
      ∧ ∀ k, k ≠ pointer_key →
          storeGet
            (advance_pointer_after_processing storage head_id pointer_key) k
            = storeGet storage k)
    ∧ (head_id = [] →
        advance_pointer_after_processing storage head_id pointer_key
          = storage) := by
  constructor
  · intro hne
    unfold advance_pointer_after_processing
    rw [if_pos hne]
    exact ⟨storeGet_storeSet_self storage pointer_key head_id,
      fun k hk => storeGet_storeSet_ne storage pointer_key k head_id hk⟩
  · intro hnil
    unfold advance_pointer_after_processing
    rw [if_neg (by simp [hnil])]

/-- Witness for C8: a concrete store where a non-empty `head_id` overwrites
the marker and an empty one leaves the store untouched. -/
theorem advance_pointer_spec_witness :
    (("new").toList ≠ []
      ∧ storeGet
          (advance_pointer_after_processing
            [((("k").toList), (("old").toList))] (("new").toList)
            (("k").toList))
          (("k").toList) = some (("new").toList))
    ∧ advance_pointer_after_processing
        [((("k").toList), (("old").toList))] [] (("k").toList)
        = [((("k").toList), (("old").toList))] :=
  ⟨⟨by decide,
      ((advance_pointer_spec [((("k").toList), (("old").toList))]
        (("new").toList) (("k").toList)).1 (by decide)).1⟩,
    (advance_pointer_spec [((("k").toList), (("old").toList))] []
      (("k").toList)).2 rfl⟩

/-- C2: on a run with a stored non-empty marker `M`, the collected ID list
never contains `M` (the marker is an exclusive stop) and its length is at
most `limit`.  (A stored marker is always non-empty in the program: both the
bootstrap and `advance` only ever store non-empty IDs, and Python treats an
empty marker string as absent in the stop test.) -/
theorem collect_excludes_marker (storage : Store) (stream : List PyStr)
    (pointer_key M : PyStr) (limit : Nat)
    (hM : storeGet storage pointer_key = some M) (hne : M ≠ []) :
    M ∉ (collect_new_messages_once storage stream pointer_key limit).1.ids
    ∧ (collect_new_messages_once storage stream pointer_key
        limit).1.ids.length ≤ limit := by
  unfold collect_new_messages_once
  rw [hM]
  by_cases hids : (listUntilMarker (some M) limit stream).1 = []
  · rw [if_pos hids]
    exact ⟨by simp, by simp⟩
  · rw [if_neg hids]
    exact ⟨listUntilMarker_not_mem M hne limit stream,
      listUntilMarker_length (some M) limit stream⟩

/-- Witness for C2: stored marker `m2`, stream `[m1, m2, m3]`, limit `5`. -/
theorem collect_excludes_marker_witness :
    storeGet [((("k").toList), (("m2").toList))] (("k").toList)
        = some (("m2").toList)
    ∧ ("m2").toList ≠ []
    ∧ (("m2").toList
        ∉ (collect_new_messages_once [((("k").toList), (("m2").toList))]
            [("m1").toList, ("m2").toList, ("m3").toList] (("k").toList)
            5).1.ids
      ∧ (collect_new_messages_once [((("k").toList), (("m2").toList))]
          [("m1").toList, ("m2").toList, ("m3").toList] (("k").toList)
          5).1.ids.length ≤ 5) :=
  ⟨by decide, by decide,
    collect_excludes_marker [((("k").toList), (("m2").toList))]
      [("m1").toList, ("m2").toList, ("m3").toList] (("k").toList)
      (("m2").toList) 5 (by decide) (by decide)⟩

theorem markerTruthy_some (M : PyStr) (hne : M ≠ []) :
    markerTruthy (some M) = true := by
  show (!M.isEmpty) = true
  rw [Bool.not_eq_true', List.isEmpty_eq_false]
  exact hne

/-- C1 counterexample: stored marker `m1`, remote stream `[m2]` — the marker
is absent and the pages are exhausted before `limit = 10` IDs accumulate, so
the claim requires `hasMore = false`; the code returns `hasMore = true`
(there is no page-exhaustion condition in `collect_new_messages_once`). -/
theorem collect_has_more_exhaustion_cx :
    storeGet [((("k").toList), (("m1").toList))] (("k").toList)
        = some (("m1").toList)
    ∧ ("m1").toList ∉ ([("m2").toList] : List PyStr)
    ∧ ([("m2").toList] : List PyStr).length < 10
    ∧ (collect_new_messages_once [((("k").toList), (("m1").toList))]
        [("m2").toList] (("k").toList) 10).1.has_more = true := by
  decide

/-- C1 (amended): on a run with a stored non-empty marker `M`, `hasMore` is
true exactly when `M` is not among the first `limit` stream IDs — whether or
not the listing stopped because the remote pages were exhausted. -/
theorem collect_has_more (storage : Store) (stream : List PyStr)
    (pointer_key M : PyStr) (limit : Nat)
    (hM : storeGet storage pointer_key = some M) (hne : M ≠ []) :
    ((collect_new_messages_once storage stream pointer_key
        limit).1.has_more = true
      ↔ M ∉ stream.take limit) := by
  unfold collect_new_messages_once
  rw [hM]
  have hseen := listUntilMarker_seen M hne limit stream
  by_cases hids : (listUntilMarker (some M) limit stream).1 = []
  · rw [if_pos hids]
    show (if (some M : Option PyStr) = none then false
        else !(listUntilMarker (some M) limit stream).2) = true ↔ _
    rw [if_neg (by simp), Bool.not_eq_true']
    constructor
    · intro h hmem
      rw [hseen.mpr hmem] at h
      exact Bool.noConfusion h
    · intro h
      by_contra hb
      rw [Bool.not_eq_false] at hb
      exact h (hseen.mp hb)
  · rw [if_neg hids]
    show (if markerTruthy (some M) = true then
        !(listUntilMarker (some M) limit stream).2 else false) = true ↔ _
    rw [if_pos (markerTruthy_some M hne), Bool.not_eq_true']
    constructor
    · intro h hmem
      rw [hseen.mpr hmem] at h
      exact Bool.noConfusion h
    · intro h
      by_contra hb
      rw [Bool.not_eq_false] at hb
      exact h (hseen.mp hb)

/-- Witness for C1: steady state with stored marker `m1` and stream
`[m4, m3, m2, m1]`; the marker occurs in the first ten IDs, so `hasMore` is
false. -/
theorem collect_has_more_witness :
    storeGet [((("k").toList), (("m1").toList))] (("k").toList)
        = some (("m1").toList)
    ∧ ("m1").toList ≠ []
    ∧ ((collect_new_messages_once [((("k").toList), (("m1").toList))]
        [("m4").toList, ("m3").toList, ("m2").toList, ("m1").toList]
        (("k").toList) 10).1.has_more = true
      ↔ ("m1").toList
          ∉ ([("m4").toList, ("m3").toList, ("m2").toList,
              ("m1").toList] : List PyStr).take 10) :=
  ⟨by decide, by decide,
    collect_has_more [((("k").toList), (("m1").toList))]
      [("m4").toList, ("m3").toList, ("m2").toList, ("m1").toList]
      (("k").toList) (("m1").toList) 10 (by decide) (by decide)⟩

/-- C3 counterexample: no stored marker, non-empty stream, but `limit = 0`:
the code returns no IDs and does not persist any marker, contradicting the
claim's unconditional bootstrap persistence. -/
theorem collect_bootstrap_cx :
    storeGet ([] : Store) (("k").toList) = none
    ∧ ([("m3").toList, ("m2").toList, ("m1").toList] : List PyStr) ≠ []
    ∧ (collect_new_messages_once ([] : Store)
        [("m3").toList, ("m2").toList, ("m1").toList] (("k").toList) 0).2
        = ([] : Store)
    ∧ storeGet (collect_new_messages_once ([] : Store)
        [("m3").toList, ("m2").toList, ("m1").toList] (("k").toList) 0).2
        (("k").toList) = none := by
  decide

/-- C3 (amended): on a run with no stored marker, a non-empty stream whose
newest ID is non-empty, and `limit ≥ 1`, the call returns the first `limit`
IDs newest-first, `headId` equal to the newest ID, `hasMore = false`, and
persists the marker as `headId` before returning. -/
theorem collect_bootstrap (storage : Store) (pointer_key h : PyStr)
    (t : List PyStr) (limit : Nat)
    (hM : storeGet storage pointer_key = none) (hh : h ≠ []) (hl : 0 < limit) :
    ((collect_new_messages_once storage (h :: t) pointer_key limit).1.ids
        = (h :: t).take limit)
    ∧ (collect_new_messages_once storage (h :: t) pointer_key
        limit).1.head_id = h
    ∧ (collect_new_messages_once storage (h :: t) pointer_key
        limit).1.has_more = false
    ∧ (collect_new_messages_once storage (h :: t) pointer_key limit).2
        = storeSet storage pointer_key h
    ∧ storeGet
        (collect_new_messages_once storage (h :: t) pointer_key limit).2
        pointer_key = some h := by
  obtain ⟨k, rfl⟩ : ∃ k, limit = k + 1 := ⟨limit - 1, by omega⟩
  unfold collect_new_messages_once
  rw [hM, listUntilMarker_none_eq, List.take_succ_cons]
  rw [if_neg (by simp)]
  have hcond : (none : Option PyStr) = none
      ∧ (((h :: List.take k t, false) : List PyStr × Bool).1).headI ≠ [] :=
    ⟨rfl, hh⟩
  refine ⟨rfl, rfl, rfl, ?_, ?_⟩
  · rw [if_pos hcond]
    exact rfl
  · rw [if_pos hcond]
    exact storeGet_storeSet_self storage pointer_key h

/-- Witness for C3: the bootstrap scenario — no stored marker, stream
`[m3, m2, m1]` newest-first, limit 10; the marker is persisted as `m3`. -/
theorem collect_bootstrap_witness :
    storeGet ([] : Store) (("k").toList) = none
    ∧ ("m3").toList ≠ []
    ∧ (0 : Nat) < 10
    ∧ (((collect_new_messages_once ([] : Store)
          ((("m3").toList) :: [("m2").toList, ("m1").toList])
          (("k").toList) 10).1.ids
        = ((("m3").toList) :: [("m2").toList, ("m1").toList]).take 10)
      ∧ (collect_new_messages_once ([] : Store)
          ((("m3").toList) :: [("m2").toList, ("m1").toList])
          (("k").toList) 10).1.head_id = ("m3").toList
      ∧ (collect_new_messages_once ([] : Store)
          ((("m3").toList) :: [("m2").toList, ("m1").toList])
          (("k").toList) 10).1.has_more = false
      ∧ (collect_new_messages_once ([] : Store)
          ((("m3").toList) :: [("m2").toList, ("m1").toList])
          (("k").toList) 10).2
          = storeSet ([] : Store) (("k").toList) (("m3").toList)
      ∧ storeGet
          (collect_new_messages_once ([] : Store)
            ((("m3").toList) :: [("m2").toList, ("m1").toList])
            (("k").toList) 10).2
          (("k").toList) = some (("m3").toList)) :=
  ⟨by decide, by decide, by decide,
    collect_bootstrap ([] : Store) (("k").toList) (("m3").toList)
      [("m2").toList, ("m1").toList] 10 (by decide) (by decide) (by decide)⟩
